import Mathlib

/-!
Verification of the reference-resolution and model-graph-construction core of
`lineage_to_md.py` (the lineage-to-graph tool).

Strings are modelled as lists of characters (`Str`), so that the Python
string primitives used by the source (`split`, `rsplit`, `replace`, `in`)
can be embedded as executable list functions with exactly the source's
semantics.  Python dictionaries whose insertion order matters are modelled
as association lists; dictionaries used purely as key-value stores are
modelled as functions into `Option`.  Python sets are modelled as `Finset`
or as duplicate-free lists where iteration feeds a sort.  Exceptions are
modelled with `Option` (`none` = the call raises / the branch returns early).
-/

namespace LineageToMd

/-- Python strings, as lists of characters. -/
abbrev Str := List Char

/-- Python `s.split(sep)` for a one-character separator: full split, where an
empty string yields `[[]]` and separators at the ends yield empty components,
exactly as in Python. -/
def pySplit (sep : Char) : Str → List Str
  | [] => [[]]
  | c :: rest =>
      if c = sep then [] :: pySplit sep rest
      else
        match pySplit sep rest with
        | [] => [[c]]
        | s :: ss => (c :: s) :: ss

/-- Python `s.split(sep, 1)` restricted to the case where the separator
occurs: `some (before, after)` splits at the first occurrence of `sep`;
`none` means `sep` does not occur in the string. -/
def splitOnce (sep : Char) : Str → Option (Str × Str)
  | [] => none
  | c :: rest =>
      if c = sep then some ([], rest)
      else (splitOnce sep rest).map (fun p => (c :: p.1, p.2))

/-- Python `s.rsplit(sep, 1)` restricted to the case where the separator
occurs: `some (before, after)` splits at the last occurrence of `sep`;
`none` means `sep` does not occur in the string. -/
def rsplitOnce (sep : Char) : Str → Option (Str × Str)
  | [] => none
  | c :: rest =>
      match rsplitOnce sep rest with
      | some p => some (c :: p.1, p.2)
      | none => if c = sep then some ([], rest) else none

/-- Python `sep.join(parts)` for a one-character separator. -/
def joinSep (sep : Char) : List Str → Str
  | [] => []
  | [s] => s
  | s :: rest => s ++ sep :: joinSep sep rest

/-- The source's `parse_reference` (and the identical `FieldReference._parse`):
split once on the first `#` to isolate the instance, then once on the first
`.` of the remainder to isolate the field.  Total: every input yields a
`(model, instance, field)` triple. -/
def parse_reference (ref : Str) : Str × Option Str × Option Str :=
  match splitOnce '#' ref with
  | some (model_part, rest) =>
      match splitOnce '.' rest with
      | some (inst, fld) => (model_part, some inst, some fld)
      | none => (model_part, some rest, none)
  | none =>
      match splitOnce '.' ref with
      | some (model, fld) => (model, none, some fld)
      | none => (ref, none, none)

/-- The source's strict `parse_field`: raises (`none`) when the input has no
`.`; otherwise splits the input at its last `.` via full split / join of all
components but the last. -/
def parse_field (ref : Str) : Option (Str × Str) :=
  if '.' ∈ ref then
    let parts := pySplit '.' ref
    some (joinSep '.' parts.dropLast, parts.getLastD [])
  else none

/-- The wildcard marker `'*'` of `UsedFields`. -/
def starStr : Str := "*".toList

/-- State of the source's `UsedFields` collection: the `_fields` dictionary,
mapping a tracking key to the set of recorded field names (`none` = the key
is absent). -/
abbrev UFMap := Str → Option (Finset Str)

/-- The source's `UsedFields.add_field`: create the key's set if missing, then
add the field unless the wildcard `'*'` is already recorded for that key. -/
def uf_add_field (uf : UFMap) (model_path fld : Str) : UFMap :=
  fun k =>
    if k = model_path then
      some (let s := (uf model_path).getD ∅
            if starStr ∈ s then s else insert fld s)
    else uf k

/-- The source's `UsedFields.mark_all_fields`: unconditionally replace the
key's set with the singleton wildcard set. -/
def uf_mark_all_fields (uf : UFMap) (model_path : Str) : UFMap :=
  fun k => if k = model_path then some {starStr} else uf k

/-- The source's `LineageEntry` (after `from_dict` normalisation: `from` is
always a list, `to` a string, `transform` optional). -/
structure LineageEntry where
  from_refs : List Str
  to_ref : Str
  transform : Option Str

/-- The flattened reference strings one lineage entry contributes, in the
order the source's loops visit them: all `from` references, then the `to`
reference.  (An empty `to` string is skipped by every loop's guard, and the
per-reference steps below are identity on the empty string, so including it
here is faithful.) -/
def entryRefs (e : LineageEntry) : List Str :=
  e.from_refs ++ [e.to_ref]

/-- All reference strings of a lineage, in processing order. -/
def lineageRefs (lineage : List LineageEntry) : List Str :=
  lineage.flatMap entryRefs

/-- A model-definition dictionary: the `{name, type, props, children}` dicts
the source passes around (a missing `props`/`children` key behaves exactly
like an empty list, so both are modelled as the empty list). -/
structure MDict where
  name : Str
  type : Str
  props : List Str
  children : List MDict

/-- Python `f"{prefix}.{name}" if prefix else name`: the path-join used by
`collect_model_names`, `collect_existing_models` and `build_model_types`. -/
def pyPathJoin (pfx n : Str) : Str :=
  if pfx = [] then n else pfx ++ '.' :: n

/-- All dot-joined model paths of a catalog (the key set of the source's
`existing_model_map` / `known_models`), via the recursive walk with a string
prefix, starting from the empty prefix. -/
def allPathsAux (pfx : Str) : List MDict → List Str
  | [] => []
  | m :: rest =>
      pyPathJoin pfx m.name ::
        (allPathsAux (pyPathJoin pfx m.name) m.children ++ allPathsAux pfx rest)
termination_by ms => sizeOf ms
decreasing_by
  all_goals (cases m ; simp <;> omega)

/-- The key set of `existing_model_map` / `known_models`. -/
def allPaths (ms : List MDict) : List Str := allPathsAux [] ms

/-- The names of the top-level models of a catalog. -/
def topNames (ms : List MDict) : List Str := ms.map (fun m => m.name)

/-! ### Usage Extractor -/

/-- The tracking key of a reference: `model#instance` when an instance is
present, else the bare model (as built inside `add_field`). -/
def trackingKey (ref : Str) : Str :=
  match parse_reference ref with
  | (m, some i, _) => m ++ '#' :: i
  | (m, none, _) => m

/-- Processing of one reference by `extract_referenced_fields`: the loop's
guard (`model` truthy, and `field is not None or model in known_models or
instance is not None`) followed by `add_field`, which re-parses the reference
and either records the wildcard (no field) or inserts the field name unless
the wildcard is already recorded. -/
def erfStep (known : List Str) (uf : UFMap) (ref : Str) : UFMap :=
  let m := (parse_reference ref).1
  let i := (parse_reference ref).2.1
  let f := (parse_reference ref).2.2
  if m ≠ [] ∧ (f ≠ none ∨ m ∈ known ∨ i ≠ none) then
    let k := trackingKey ref
    match f with
    | none =>
        fun q => if q = k then some (insert starStr ((uf k).getD ∅)) else uf q
    | some fld =>
        fun q =>
          if q = k then
            some (let s := (uf k).getD ∅
                  if starStr ∈ s then s else insert fld s)
          else uf q
  else uf

/-- The source's `extract_referenced_fields`: fold the per-reference step
over all lineage references, with `known_models` the path set of the given
YAML models. -/
def extract_referenced_fields (lineage : List LineageEntry) (yaml_models : List MDict) : UFMap :=
  (lineageRefs lineage).foldl (erfStep (allPaths yaml_models)) (fun _ => none)

/-- The referenced-model loop of `ExtractReferencedModelsUseCase.execute`:
collect every parsed model name that is non-empty. -/
def ucReferencedModels (lineage : List LineageEntry) : Finset Str :=
  (lineageRefs lineage).foldl
    (fun s ref =>
      if (parse_reference ref).1 ≠ [] then insert (parse_reference ref).1 s else s) ∅

/-- Processing of one reference by the model-instance loop of
`ExtractReferencedModelsUseCase.execute`: `add_instance` when model and
instance are both present, `mark_model_without_instance` when only the model
is. -/
def miStep (mi : Str → Option (Finset Str)) (ref : Str) : Str → Option (Finset Str) :=
  let m := (parse_reference ref).1
  match (parse_reference ref).2.1 with
  | some x =>
      if m ≠ [] then (fun q => if q = m then some (insert x ((mi m).getD ∅)) else mi q)
      else mi
  | none =>
      if m ≠ [] then (fun q => if q = m then some ((mi m).getD ∅) else mi q)
      else mi

/-- The `ModelInstances` result of `ExtractReferencedModelsUseCase.execute`. -/
def ucModelInstances (lineage : List LineageEntry) : Str → Option (Finset Str) :=
  (lineageRefs lineage).foldl miStep (fun _ => none)

/-- One step of the use case's replay of a raw field set into the
`UsedFields` collection, specialised to a single tracking key (the
`mark_all_fields` / `add_field` calls for distinct keys are independent):
`'*'` marks all fields, anything else is added unless `'*'` is present. -/
def ufKeyStep (acc : Option (Finset Str)) (fld : Str) : Option (Finset Str) :=
  if fld = starStr then some {starStr}
  else some (let s := acc.getD ∅
             if starStr ∈ s then s else insert fld s)

/-- The `UsedFields` result of `ExtractReferencedModelsUseCase.execute`: the
raw `extract_referenced_fields` dictionary replayed per key through
`mark_all_fields`/`add_field` (folding over an enumeration of each key's raw
set; the fold result is proved independent of the enumeration order). -/
def uc_used_fields (lineage : List LineageEntry) (yaml_models : List MDict) : UFMap :=
  fun k =>
    (extract_referenced_fields lineage yaml_models k).bind
      (fun s => (s.sort (· ≤ ·)).foldl ufKeyStep none)

/-- Two lineage entries are extraction-equivalent: same target reference,
and the source references of one are a permutation of the other's (the
claim's "permutation of the source references within each entry").  The
optional transform is not read by the Usage Extractor. -/
def EntryEquiv (e₁ e₂ : LineageEntry) : Prop :=
  e₁.from_refs.Perm e₂.from_refs ∧ e₁.to_ref = e₂.to_ref

/-- A reference passes the guard of `extract_referenced_fields`: non-empty
model, and a field, a known model, or an instance. -/
def refPasses (known : List Str) (ref : Str) : Prop :=
  (parse_reference ref).1 ≠ [] ∧
    ((parse_reference ref).2.2 ≠ none ∨ (parse_reference ref).1 ∈ known ∨
      (parse_reference ref).2.1 ≠ none)

/-- Some reference of the list passes the guard and tracks key `k`. -/
def hasKey (known : List Str) (L : List Str) (k : Str) : Prop :=
  ∃ r ∈ L, refPasses known r ∧ trackingKey r = k

/-- Some passing reference with tracking key `k` contributes the wildcard to
the raw field set: a bare reference (`field = None` → `mark_all_fields`) or a
field literally named `*`. -/
def hasStar (known : List Str) (L : List Str) (k : Str) : Prop :=
  ∃ r ∈ L, refPasses known r ∧ trackingKey r = k ∧
    ((parse_reference r).2.2 = none ∨ (parse_reference r).2.2 = some starStr)

/-- Some passing reference with tracking key `k` carries field `x`. -/
def hasFld (known : List Str) (L : List Str) (k x : Str) : Prop :=
  ∃ r ∈ L, refPasses known r ∧ trackingKey r = k ∧
    (parse_reference r).2.2 = some x

/-- Some reference of the list parses to the (non-empty) model `q` (the
guard of the model-instance loop). -/
def hasModel (L : List Str) (q : Str) : Prop :=
  ∃ r ∈ L, (parse_reference r).1 = q ∧ q ≠ []

/-- Some reference of the list parses to model `q` with instance `x`. -/
def hasInst (L : List Str) (q x : Str) : Prop :=
  ∃ r ∈ L, (parse_reference r).1 = q ∧ q ≠ [] ∧
    (parse_reference r).2.1 = some x

/-! ### Dynamic Field Inferrer -/

/-- Python `ref.replace('#', '.')` (single-character replace). -/
def swapHash (c : Char) : Char := if c = '#' then '.' else c

/-- Python `s.replace('..', '.')`: left-to-right, non-overlapping. -/
def collapseDD : Str → Str
  | [] => []
  | [c] => [c]
  | c1 :: c2 :: rest =>
      if c1 = '.' ∧ c2 = '.' then '.' :: collapseDD rest
      else c1 :: collapseDD (c2 :: rest)

/-- Python `s.split(sep)[0]`. -/
def headSplitD (sep : Char) (s : Str) : Str := (pySplit sep s).headD []

/-- Python `s.split(sep)[-1]`. -/
def lastSplitD (sep : Char) (s : Str) : Str := (pySplit sep s).getLastD []

/-- The root model of a reference inside `extract_field_references`:
`ref.split('.')[0].split('#')[0]`. -/
def candRoot (ref : Str) : Str := headSplitD '#' (headSplitD '.' ref)

/-- The candidate `(model_path, field)` pair of `extract_field_references`
for a reference already known to contain a `.`: with a `#`, de-instance the
reference (`replace('#','.').replace('..','.')`), split at the last dot,
keep only the first dot-component as the model path, and take the text after
the last dot of the original reference as the field; without a `#`, split the
reference at its last dot.  (The inner `none` branches correspond to
`rsplit` yielding fewer than two parts, which cannot happen when a dot is
present.) -/
def candPair (ref : Str) : Option (Str × Str) :=
  if '#' ∈ ref then
    match rsplitOnce '.' (collapseDD (ref.map swapHash)) with
    | some p => some (headSplitD '.' p.1, lastSplitD '.' ref)
    | none => none
  else rsplitOnce '.' ref

/-- First model with the given name in a list (`for m in models: if
m['name'] == part`). -/
def firstMatch (p : Str) : List MDict → Option MDict
  | [] => none
  | m :: rest => if m.name = p then some m else firstMatch p rest

/-- Replace the first model with the given name by applying `f` to it. -/
def replaceFirst (p : Str) (f : MDict → MDict) : List MDict → List MDict
  | [] => []
  | m :: rest => if m.name = p then f m :: rest else m :: replaceFirst p f rest

/-- The source's path traversal (`for i, part in enumerate(parts): ...`):
follow first-name matches level by level; `some` is the model at the final
part, `none` means some part was not found. -/
def findPath : List MDict → List Str → Option MDict
  | _, [] => none
  | ms, [p] => firstMatch p ms
  | ms, p :: q :: rest =>
      match firstMatch p ms with
      | some m => findPath m.children (q :: rest)
      | none => none

/-- The candidate computation of `extract_field_references` for one
reference: skip when there is no dot, skip when the root model is not a key
of `existing_model_map`, then compute the `(model_path, field)` pair and keep
it when the traversed path is missing or has empty declared properties. -/
def fieldCandidate (ms : List MDict) (ref : Str) : Option (Str × Str) :=
  if '.' ∈ ref then
    if candRoot ref ∈ allPaths ms then
      match candPair ref with
      | some (mp, fld) =>
          match findPath ms (pySplit '.' mp) with
          | some m => if m.props = [] then some (mp, fld) else none
          | none => some (mp, fld)
      | none => none
    else none
  else none

/-- Insertion into the `dynamic_fields` dictionary: create the key at the end
on first sight (Python dict insertion order), and add the field to the key's
set (sets are modelled as duplicate-free lists in first-insertion order; the
only consumer sorts them). -/
def dfInsert (d : List (Str × List Str)) (mp fld : Str) : List (Str × List Str) :=
  match d with
  | [] => [(mp, [fld])]
  | (k, fs) :: rest =>
      if k = mp then (k, if fld ∈ fs then fs else fs ++ [fld]) :: rest
      else (k, fs) :: dfInsert rest mp fld

/-- Phase 1 of `create_dynamic_models_from_lineage`: the `dynamic_fields`
dictionary accumulated over all lineage references against the original
catalog. -/
def dynamicFields (ms : List MDict) (lineage : List LineageEntry) : List (Str × List Str) :=
  (lineageRefs lineage).foldl
    (fun d ref =>
      match fieldCandidate ms ref with
      | some p => dfInsert d p.1 p.2
      | none => d) []

/-- Python string `<=` on code points (used to model `sorted`). -/
def strLe : Str → Str → Bool
  | [], _ => true
  | _ :: _, [] => false
  | a :: as, b :: bs => if a < b then true else if b < a then false else strLe as bs

/-- Insertion into a sorted list. -/
def insSorted (x : Str) : List Str → List Str
  | [] => [x]
  | y :: ys => if strLe x y then x :: y :: ys else y :: insSorted x ys

/-- Python `sorted` on a collection of strings (insertion sort; the inputs it
is applied to are duplicate-free). -/
def sortStrs (l : List Str) : List Str := l.foldr insSorted []

/-- The default model type of the inferrer (`parent_type = 'program'`). -/
def programType : Str := "program".toList

/-- The chain of freshly created models for the missing trailing parts of a
path: every created model inherits the nearest existing ancestor's type, only
the leaf receives the pending (sorted) field set, intermediates get empty
properties. -/
def createChain : List Str → List Str → Str → MDict
  | [], props, ptype => ⟨[], ptype, props, []⟩
  | [p], props, ptype => ⟨p, ptype, props, []⟩
  | p :: q :: rest, props, ptype => ⟨p, ptype, [], [createChain (q :: rest) props ptype]⟩

/-- Phase 2 of `create_dynamic_models_from_lineage` for one
`(model_path, fields)` entry: walk the parts; at the final part, fill the
properties only when they are empty (or append a new leaf when missing); at
an inner part, descend into the first match (threading its type as the
inherited parent type) or append the created chain when missing.  The
`parts = []` case is unreachable (`split` never returns an empty list). -/
def updatePath : List MDict → List Str → List Str → Str → List MDict
  | ms, [], _, _ => ms
  | ms, [p], props, ptype =>
      match firstMatch p ms with
      | some _ =>
          replaceFirst p (fun m => if m.props = [] then { m with props := props } else m) ms
      | none => ms ++ [⟨p, ptype, props, []⟩]
  | ms, p :: q :: rest, props, ptype =>
      match firstMatch p ms with
      | some _ =>
          replaceFirst p
            (fun m => { m with children := updatePath m.children (q :: rest) props m.type }) ms
      | none => ms ++ [createChain (p :: q :: rest) props ptype]

/-- Phase 2 of `create_dynamic_models_from_lineage`: fold the per-entry
catalog update over `dynamic_fields` in insertion order, each pending set
sorted. -/
def phase2 (d : List (Str × List Str)) (ms : List MDict) : List MDict :=
  d.foldl (fun cur kv => updatePath cur (pySplit '.' kv.1) (sortStrs kv.2) programType) ms

/-- The source's `create_dynamic_models_from_lineage`, as a state
transformer: the first component is the final state of the mutated
`existing_models` argument, the second is the function's return value —
always the empty list (`return []`, "we modified existing_models in
place"). -/
def create_dynamic_models_from_lineage (lineage : List LineageEntry) (ms : List MDict) :
    List MDict × List MDict :=
  (phase2 (dynamicFields ms lineage) ms, [])

/-- The catalog after running the Dynamic Field Inferrer (the post-state of
the `existing_models` argument). -/
def inferCatalog (lineage : List LineageEntry) (ms : List MDict) : List MDict :=
  (create_dynamic_models_from_lineage lineage ms).1

/-! ### Model Graph Builder -/

/-- Python `s.replace("::", "_")` (left-to-right, non-overlapping). -/
def replaceColons : Str → Str
  | [] => []
  | [c] => [c]
  | c1 :: c2 :: rest =>
      if c1 = ':' ∧ c2 = ':' then '_' :: replaceColons rest
      else c1 :: replaceColons (c2 :: rest)

/-- The character class of `slug`'s symbol regex: whitespace, hyphen, dot,
slashes, parentheses and both kinds of brackets (`Char.ofNat 123`/`125` are
the curly brackets, 11/12 vertical tab and form feed). -/
def isSymChar (c : Char) : Bool :=
  c == ' ' || c == '\t' || c == '\n' || c == '\r' ||
  c == Char.ofNat 11 || c == Char.ofNat 12 ||
  c == '-' || c == '.' || c == '/' || c == '\\' ||
  c == '(' || c == ')' || c == '[' || c == ']' ||
  c == Char.ofNat 123 || c == Char.ofNat 125

mutual

/-- Regex `re.sub(p+ , rep)`: normal state — a run of matching characters is
replaced by one `rep`. -/
def sqRun (p : Char → Bool) (rep : Char) : Str → Str
  | [] => []
  | c :: rest => if p c then rep :: sqSkip p rep rest else c :: sqRun p rep rest

/-- Regex `re.sub(p+ , rep)`: skipping state — inside a run that has already
emitted its replacement. -/
def sqSkip (p : Char → Bool) (rep : Char) : Str → Str
  | [] => []
  | c :: rest => if p c then sqSkip p rep rest else c :: sqRun p rep rest

end

/-- Python `s.strip(c)`. -/
def stripChar (c : Char) (s : Str) : Str :=
  ((s.dropWhile (· == c)).reverse.dropWhile (· == c)).reverse

/-- The source's `slug`: replace `::`, collapse symbol runs and underscore
runs to single underscores, strip underscores, default to `id`, and prefix
`n_` when the result starts with a digit. -/
def slug (s : Str) : Str :=
  let s1 := replaceColons s
  let s2 := sqRun isSymChar '_' s1
  let s3 := sqRun (· == '_') '_' s2
  let s4 := stripChar '_' s3
  let s5 := if s4 = [] then "id".toList else s4
  if (s5.headD ' ').isDigit then 'n' :: '_' :: s5 else s5

/-- The `.replace(".", "_")` applied to the node-id seed before `slug`. -/
def dotToUnd (c : Char) : Char := if c = '.' then '_' else c

/-- The instance list a model is expanded over: the synthetic no-instance
marker when no instances were recorded, else the instance identifiers in
sorted order (Python `sorted` with the none-first key; with a non-empty set
every element is a string, so the key reduces to lexicographic order). -/
def sortedInstances (insts : List Str) : List (Option Str) :=
  if insts = [] then [none] else (sortStrs insts).map some

/-- The order induced by the source's instance sort key
`(x is not None, x or '')`: the no-instance marker sorts before every
instance id, and instance ids compare by code points. -/
def optLe : Option Str → Option Str → Prop
  | none, _ => True
  | some _, none => False
  | some a, some b => strLe a b = true

/-- The four dictionaries `parse_models_recursive` accumulates, as
insertion-ordered association lists: `model_types`, `field_nodes_by_model`,
`field_node_ids`, and `model_hierarchy` (the hierarchy entry is
`(parent, children, instance)`). -/
structure BuilderOut where
  model_types : List (Str × Str)
  field_nodes_by_model : List (Str × List (Str × Str))
  field_node_ids : List (Str × Str)
  model_hierarchy : List (Str × (Option Str × List Str × Option Str))

/-- Python dict assignment on an insertion-ordered association list. -/
def dictInsert {α : Type} : List (Str × α) → Str → α → List (Str × α)
  | [], k, v => [(k, v)]
  | (k0, v0) :: rest, k, v =>
      if k0 = k then (k0, v) :: rest else (k0, v0) :: dictInsert rest k v

/-- The `_{instance}` fragment of a node identifier. -/
def instSuffix : Option Str → Str
  | some i => '_' :: i
  | none => []

/-- The instance path `fullPath#instance` (or the plain path). -/
def instPath (fullPath : Str) : Option Str → Str
  | some i => fullPath ++ '#' :: i
  | none => fullPath

/-- The reference string a field node is registered under in
`field_node_ids`. -/
def fieldRefOf (fullPath : Str) (inst : Option Str) (p : Str) : Str :=
  match inst with
  | some i => fullPath ++ '#' :: i ++ '.' :: p
  | none => fullPath ++ '.' :: p

/-- The field loop of `parse_models_recursive` for one model instance:
filtered fields are skipped, every kept field gets a slug node id appended to
the node list and registered in `field_node_ids`. -/
def processProps (fullPath : Str) (inst : Option Str) (shouldFilter : Bool)
    (ufS : Finset Str) :
    List Str → List (Str × Str) → List (Str × Str) → List (Str × Str) × List (Str × Str)
  | [], nodes, fids => (nodes, fids)
  | p :: rest, nodes, fids =>
      if shouldFilter ∧ starStr ∉ ufS ∧ p ∉ ufS then
        processProps fullPath inst shouldFilter ufS rest nodes fids
      else
        let nid := slug ((fullPath ++ instSuffix inst ++ '_' :: p).map dotToUnd)
        processProps fullPath inst shouldFilter ufS rest
          (nodes ++ [(nid, p)])
          (dictInsert fids (fieldRefOf fullPath inst p) nid)

/-- The per-instance body of `parse_models_recursive`: record the type and
hierarchy entry under the instance path, decide filtering, and process the
declared properties. -/
def processInstance (m : MDict) (fullPath pfx : Str) (uf : Option UFMap)
    (csv : Option (List Str)) (st : BuilderOut) (inst : Option Str) : BuilderOut :=
  let ipath := instPath fullPath inst
  let shouldFilter : Bool :=
    match uf, csv with
    | some u, some cs => decide (m.name ∈ cs) && (u ipath).isSome
    | _, _ => false
  let ufS : Finset Str :=
    match uf with
    | some u => (u ipath).getD ∅
    | none => ∅
  let nf := processProps fullPath inst shouldFilter ufS m.props [] st.field_node_ids
  { model_types := dictInsert st.model_types ipath m.type
    field_nodes_by_model := dictInsert st.field_nodes_by_model ipath nf.1
    field_node_ids := nf.2
    model_hierarchy :=
      dictInsert st.model_hierarchy ipath
        ((if pfx = [] then none else some pfx),
         m.children.map (fun c => fullPath ++ '.' :: c.name),
         inst) }

/-- The source's `parse_models_recursive`: for each model, expand the sorted
instance list (no-instance marker first) into per-instance nodes, then
recurse into the children with the model's full path as the new prefix.  (The
unused `parent_instance` parameter of the source is omitted: it is threaded
but never read.) -/
def parse_models_recursive (ms : List MDict) (pfx : Str) (uf : Option UFMap)
    (csv : Option (List Str)) (mi : Str → Option (List Str)) (st : BuilderOut) :
    BuilderOut :=
  match ms with
  | [] => st
  | m :: rest =>
      let fullPath := pyPathJoin pfx m.name
      let insts := (mi m.name).getD []
      let st1 := (sortedInstances insts).foldl (processInstance m fullPath pfx uf csv) st
      let st2 :=
        if m.children.isEmpty then st1
        else parse_models_recursive m.children fullPath uf csv mi st1
      parse_models_recursive rest pfx uf csv mi st2
termination_by sizeOf ms
decreasing_by
  all_goals (cases m ; simp <;> omega)

/-- The empty builder state. -/
def emptyBuilderOut : BuilderOut := ⟨[], [], [], []⟩

/-! ### Concrete inputs used by counterexamples and witnesses -/

/-- The Money catalog with two declared fields (the spec's P6 example). -/
def exMoneyFullCatalog : List MDict :=
  [⟨"Money".toList, "program".toList, ["amount".toList, "currency".toList], []⟩]

/-- Recorded instances for P6: `Money` has instances `jpy` and `usd`. -/
def exMoneyInstances : Str → Option (List Str) :=
  fun k => if k = "Money".toList then some ["jpy".toList, "usd".toList] else none

/-- A catalog with one property-less model, as in the source's doc example. -/
def exEmptyCatalog : List MDict :=
  [⟨"EmptyModel".toList, "program".toList, [], []⟩]

/-- Lineage sending a literal into `EmptyModel.field1`. -/
def exEmptyLineage : List LineageEntry :=
  [⟨["value".toList], "EmptyModel.field1".toList, none⟩]

/-- A catalog with a `Parent` model holding a property-less `Child`. -/
def exParentChild : List MDict :=
  [⟨"Parent".toList, "program".toList, [],
    [⟨"Child".toList, "program".toList, [], []⟩]⟩]

/-- Lineage with a nested, instance-qualified target reference. -/
def exNestedInstanceLineage : List LineageEntry :=
  [⟨[], "Parent.Child#x.code".toList, none⟩]

/-- A catalog with a single `Target` model (no model named `v1` or `v1.0`). -/
def exTargetCatalog : List MDict :=
  [⟨"Target".toList, "datastore".toList, ["version".toList], []⟩]

/-- The spec's literal-passthrough lineage: a constant `v1.0` flowing into
`Target.version`. -/
def exLiteralLineage : List LineageEntry :=
  [⟨["v1.0".toList], "Target.version".toList, none⟩]

/-- A catalog whose only top-level model has the empty string as its name. -/
def exEmptyNameCatalog : List MDict :=
  [⟨[], "program".toList, ["x".toList], []⟩]

/-- Lineage whose references interact with the empty-named model. -/
def exEmptyNameLineage : List LineageEntry :=
  [⟨[".B.f".toList], "B.g".toList, none⟩]

/-- A catalog with one fully declared model. -/
def exDeclaredCatalog : List MDict :=
  [⟨"ModelWithProps".toList, "program".toList,
    ["existing1".toList, "existing2".toList], []⟩]

/-- Lineage referencing a new field of the declared model. -/
def exDeclaredLineage : List LineageEntry :=
  [⟨["lit".toList], "ModelWithProps.newfield".toList, none⟩]

/-- The Money catalog of the spec's scenario (no declared properties). -/
def exMoneyCatalog : List MDict :=
  [⟨"Money".toList, "program".toList, [], []⟩]

/-- The Money lineage of the spec's scenario. -/
def exMoneyLineage : List LineageEntry :=
  [⟨["lit".toList], "Money#jpy.amount".toList, none⟩,
   ⟨["lit2".toList], "Money#usd.amount".toList, none⟩,
   ⟨["lit3".toList], "Money#jpy.currency".toList, none⟩]

/-- A two-entry lineage used to exercise order independence. -/
def exC5L1 : List LineageEntry :=
  [⟨["A.x".toList, "B.y".toList], "C.z".toList, none⟩,
   ⟨["D#i.w".toList], "C.z".toList, none⟩]

/-- `exC5L1` with the entries swapped. -/
def exC5Mid : List LineageEntry :=
  [⟨["D#i.w".toList], "C.z".toList, none⟩,
   ⟨["A.x".toList, "B.y".toList], "C.z".toList, none⟩]

/-- `exC5Mid` with the source references of its second entry swapped. -/
def exC5L2 : List LineageEntry :=
  [⟨["D#i.w".toList], "C.z".toList, none⟩,
   ⟨["B.y".toList, "A.x".toList], "C.z".toList, none⟩]

/-- The Model Graph Builder's output on the P6 example: the Money catalog
with two declared fields, instances `jpy` and `usd`, no used-fields filter. -/
def exP6Out : BuilderOut :=
  parse_models_recursive exMoneyFullCatalog [] none none exMoneyInstances
    emptyBuilderOut

/-! ## Basic lemmas about the string primitives -/

theorem pySplit_ne_nil (sep : Char) (s : Str) : pySplit sep s ≠ [] := by
  induction s with
  | nil => simp [pySplit]
  | cons c rest ih =>
      simp only [pySplit]
      split
      · simp
      · cases h : pySplit sep rest with
        | nil => simp
        | cons s ss => simp

theorem splitOnce_eq_none (sep : Char) (s : Str) :
    splitOnce sep s = none ↔ sep ∉ s := by
  induction s with
  | nil => simp [splitOnce]
  | cons c rest ih =>
      simp only [splitOnce, List.mem_cons]
      by_cases hc : c = sep
      · simp [hc]
      · have hcs : ¬ sep = c := fun h2 => hc h2.symm
        rw [if_neg hc, Option.map_eq_none', ih]
        simp [hcs]

theorem splitOnce_eq_some (sep : Char) (s a b : Str)
    (h : splitOnce sep s = some (a, b)) : s = a ++ sep :: b ∧ sep ∉ a := by
  induction s generalizing a with
  | nil => simp [splitOnce] at h
  | cons c rest ih =>
      simp only [splitOnce] at h
      by_cases hc : c = sep
      · rw [if_pos hc] at h
        simp only [Option.some.injEq, Prod.mk.injEq] at h
        rw [← h.1, ← h.2, hc]
        simp
      · rw [if_neg hc] at h
        cases h2 : splitOnce sep rest with
        | none => simp [h2] at h
        | some p =>
            rcases p with ⟨p1, p2⟩
            simp only [h2, Option.map_some', Option.some.injEq, Prod.mk.injEq] at h
            obtain ⟨ha, hb⟩ := h
            have hi := ih p1 (by rw [h2, hb])
            refine ⟨?_, ?_⟩
            · rw [← ha]
              simp [hi.1]
            · rw [← ha]
              simp only [List.mem_cons]
              exact fun h3 => h3.elim (fun h4 => hc h4.symm) hi.2

theorem rsplitOnce_eq_none (sep : Char) (s : Str) :
    rsplitOnce sep s = none ↔ sep ∉ s := by
  induction s with
  | nil => simp [rsplitOnce]
  | cons c rest ih =>
      simp only [rsplitOnce, List.mem_cons]
      cases h : rsplitOnce sep rest with
      | none =>
          simp only [h] at ih
          simp only [eq_self_iff_true, true_iff] at ih
          by_cases hc : c = sep
          · simp [hc]
          · have hcs : ¬ sep = c := fun h2 => hc h2.symm
            simp [hc, ih, hcs]
      | some p =>
          simp only [h] at ih
          simp at ih
          simp [ih]

theorem rsplitOnce_eq_some (sep : Char) (s a b : Str)
    (h : rsplitOnce sep s = some (a, b)) : s = a ++ sep :: b ∧ sep ∉ b := by
  induction s generalizing a with
  | nil => simp [rsplitOnce] at h
  | cons c rest ih =>
      simp only [rsplitOnce] at h
      cases h2 : rsplitOnce sep rest with
      | none =>
          rw [h2] at h
          by_cases hc : c = sep
          · rw [if_pos hc] at h
            simp only [Option.some.injEq, Prod.mk.injEq] at h
            have h3 := (rsplitOnce_eq_none sep rest).1 h2
            rw [← h.1, ← h.2, hc]
            exact ⟨rfl, h3⟩
          · rw [if_neg hc] at h
            exact absurd h (by simp)
      | some p =>
          rcases p with ⟨p1, p2⟩
          rw [h2] at h
          simp only [Option.some.injEq, Prod.mk.injEq] at h
          obtain ⟨ha, hb⟩ := h
          have hi := ih p1 (by rw [h2, hb])
          refine ⟨?_, hi.2⟩
          rw [← ha]
          simp [hi.1]

theorem joinSep_pySplit (sep : Char) (s : Str) :
    joinSep sep (pySplit sep s) = s := by
  induction s with
  | nil => simp [pySplit, joinSep]
  | cons c rest ih =>
      simp only [pySplit]
      split
      · rename_i hc
        subst hc
        cases h : pySplit c rest with
        | nil => exact absurd h (pySplit_ne_nil c rest)
        | cons s ss => simp [joinSep, h] at ih ⊢; exact ih
      · cases h : pySplit sep rest with
        | nil => exact absurd h (pySplit_ne_nil sep rest)
        | cons s ss =>
            simp only [h, joinSep] at ih ⊢
            cases ss with
            | nil => simp [joinSep] at ih ⊢; exact ih
            | cons t ts => simp [joinSep] at ih ⊢; exact ih

theorem getLastD_irrel {α : Type} (l : List α) (d d' : α) (h : l ≠ []) :
    l.getLastD d = l.getLastD d' := by
  induction l generalizing d d' with
  | nil => exact absurd rfl h
  | cons x xs ih =>
      cases xs with
      | nil => rfl
      | cons y ys => simp only [List.getLastD_cons]

theorem getLastD_mem {α : Type} (l : List α) (d : α) (h : l ≠ []) :
    l.getLastD d ∈ l := by
  induction l generalizing d with
  | nil => exact absurd rfl h
  | cons x xs ih =>
      cases xs with
      | nil => simp
      | cons y ys =>
          have h2 := ih x (by simp)
          simp only [List.getLastD_cons] at h2 ⊢
          exact List.mem_cons_of_mem x h2

theorem pySplit_comp_not_mem (sep : Char) (s : Str) :
    ∀ x ∈ pySplit sep s, sep ∉ x := by
  induction s with
  | nil => intro x hx; simp [pySplit] at hx; simp [hx]
  | cons c rest ih =>
      intro x hx
      simp only [pySplit] at hx
      by_cases hc : c = sep
      · rw [if_pos hc] at hx
        rcases List.mem_cons.1 hx with h1 | h1
        · simp [h1]
        · exact ih x h1
      · rw [if_neg hc] at hx
        cases h : pySplit sep rest with
        | nil => exact absurd h (pySplit_ne_nil sep rest)
        | cons s0 ss =>
            rw [h] at hx
            rcases List.mem_cons.1 hx with h1 | h1
            · subst h1
              have hs0 : sep ∉ s0 := ih s0 (by rw [h]; simp)
              simp only [List.mem_cons]
              exact fun h2 => h2.elim (fun h3 => hc h3.symm) hs0
            · exact ih x (by rw [h]; exact List.mem_cons_of_mem s0 h1)

theorem sep_not_mem_getLast (sep : Char) (s : Str) :
    sep ∉ (pySplit sep s).getLastD [] := by
  exact pySplit_comp_not_mem sep s _ (getLastD_mem _ _ (pySplit_ne_nil sep s))

theorem pySplit_length_ge_two (sep : Char) (s : Str) (h : sep ∈ s) :
    2 ≤ (pySplit sep s).length := by
  induction s with
  | nil => simp at h
  | cons c rest ih =>
      have hone : 1 ≤ (pySplit sep rest).length := by
        cases h2 : pySplit sep rest with
        | nil => exact absurd h2 (pySplit_ne_nil sep rest)
        | cons a b => simp
      simp only [pySplit]
      by_cases hc : c = sep
      · rw [if_pos hc]
        simp only [List.length_cons]
        omega
      · rw [if_neg hc]
        have hm : sep ∈ rest := by
          rcases List.mem_cons.1 h with h1 | h1
          · exact absurd h1.symm hc
          · exact h1
        have h2 := ih hm
        cases h3 : pySplit sep rest with
        | nil => exact absurd h3 (pySplit_ne_nil sep rest)
        | cons a b =>
            rw [h3] at h2
            simp only [List.length_cons] at h2 ⊢
            omega

theorem joinSep_cons_of_ne_nil (sep : Char) (s : Str) (l : List Str) (h : l ≠ []) :
    joinSep sep (s :: l) = s ++ sep :: joinSep sep l := by
  cases l with
  | nil => exact absurd rfl h
  | cons t ts => rfl

theorem joinSep_dropLast_append (sep : Char) (l : List Str) (h : 2 ≤ l.length) :
    joinSep sep l = joinSep sep l.dropLast ++ sep :: l.getLastD [] := by
  induction l with
  | nil => simp at h
  | cons s rest ih =>
      cases rest with
      | nil => simp at h
      | cons t ts =>
          cases ts with
          | nil => simp [joinSep]
          | cons u us =>
              have h2 := ih (by simp)
              have hne : (t :: u :: us).dropLast ≠ [] := by
                simp [List.dropLast_cons_of_ne_nil]
              calc joinSep sep (s :: t :: u :: us)
                  = s ++ sep :: joinSep sep (t :: u :: us) := by
                    exact joinSep_cons_of_ne_nil sep s _ (by simp)
                _ = s ++ sep :: (joinSep sep (t :: u :: us).dropLast
                      ++ sep :: (t :: u :: us).getLastD []) := by rw [← h2]
                _ = (s ++ sep :: joinSep sep (t :: u :: us).dropLast)
                      ++ sep :: (t :: u :: us).getLastD [] := by simp
                _ = joinSep sep (s :: (t :: u :: us).dropLast)
                      ++ sep :: (t :: u :: us).getLastD [] := by
                    rw [joinSep_cons_of_ne_nil sep s _ hne]
                _ = joinSep sep ((s :: t :: u :: us).dropLast)
                      ++ sep :: (s :: t :: u :: us).getLastD [] := by
                    simp [List.dropLast_cons_of_ne_nil, List.getLastD_cons]

/-! ## Claim C2: lenient parser totality and the model component -/

/-- C2 counterexample: the claim says the model component is never empty for a
non-empty input, but the non-empty input "#x" parses to an empty model. -/
theorem c2_counterexample :
    ("#x".toList : Str) ≠ [] ∧ (parse_reference "#x".toList).1 = [] := by
  constructor
  · decide
  · decide

/-- The model component of `parse_reference` is the text before the first
`#` when a `#` occurs, else the text before the first `.` when a `.` occurs,
else the whole input. -/
theorem parse_reference_model (ref : Str) :
    (parse_reference ref).1 =
      match splitOnce '#' ref with
      | some p => p.1
      | none =>
          match splitOnce '.' ref with
          | some q => q.1
          | none => ref := by
  cases hsh : splitOnce '#' ref with
  | some p =>
      rcases p with ⟨a, b⟩
      cases hsd : splitOnce '.' b with
      | none => simp [parse_reference, hsh, hsd]
      | some q => rcases q with ⟨i, f⟩; simp [parse_reference, hsh, hsd]
  | none =>
      cases hsd : splitOnce '.' ref with
      | none => simp [parse_reference, hsh, hsd]
      | some q => rcases q with ⟨m, f⟩; simp [parse_reference, hsh, hsd]

/-- C2 (amended): the lenient parser is total — every input yields a
`(model, instance, field)` triple — and the model component is non-empty for
every non-empty input that does not start with `'#'` and (when it contains no
`'#'`) does not start with `'.'`. -/
theorem c2_amended_thm (ref : Str) (h1 : ref ≠ [])
    (h2 : ref.head? ≠ some '#') (h3 : '#' ∉ ref → ref.head? ≠ some '.') :
    (parse_reference ref).1 ≠ [] := by
  rw [parse_reference_model]
  cases hsh : splitOnce '#' ref with
  | some p =>
      rcases p with ⟨a, b⟩
      have ha := splitOnce_eq_some '#' ref a b hsh
      intro hcon
      simp only at hcon
      rw [hcon] at ha
      rw [ha.1] at h2
      simp at h2
  | none =>
      have hnh : '#' ∉ ref := (splitOnce_eq_none '#' ref).1 hsh
      cases hsd : splitOnce '.' ref with
      | some q =>
          rcases q with ⟨m, f⟩
          have hm := splitOnce_eq_some '.' ref m f hsd
          intro hcon
          simp only at hcon
          rw [hcon] at hm
          have h4 := h3 hnh
          rw [hm.1] at h4
          simp at h4
      | none =>
          exact h1

/-- C2 witness: the amended theorem applied at the concrete reference
"Money#jpy.amount". -/
theorem c2_witness : (parse_reference "Money#jpy.amount".toList).1 ≠ [] :=
  c2_amended_thm "Money#jpy.amount".toList (by decide) (by decide) (by decide)

/-! ## Claim C9: the strict leaf-field split -/

/-- C9: the strict leaf split `parse_field` fails (raises, modelled as `none`)
iff the input has no `.`; when it succeeds, the returned pair is exactly the
text before the last `.` and the text after the last `.` (the returned field
contains no further `.`). -/
theorem c9_parse_field_spec (ref : Str) :
    (parse_field ref = none ↔ '.' ∉ ref) ∧
    (∀ mp fld, parse_field ref = some (mp, fld) →
      ref = mp ++ '.' :: fld ∧ '.' ∉ fld) := by
  by_cases hdot : '.' ∈ ref
  · constructor
    · simp [parse_field, hdot]
    · intro mp fld h
      simp only [parse_field, if_pos hdot, Option.some.injEq, Prod.mk.injEq] at h
      obtain ⟨hmp, hfld⟩ := h
      have hlen := pySplit_length_ge_two '.' ref hdot
      have hjoin := joinSep_pySplit '.' ref
      have hsplit := joinSep_dropLast_append '.' (pySplit '.' ref) hlen
      constructor
      · rw [← hjoin, hsplit, hmp, hfld]
      · rw [← hfld]
        exact sep_not_mem_getLast '.' ref
  · constructor
    · simp [parse_field, hdot]
    · intro mp fld h
      simp [parse_field, hdot] at h

/-! ## Claim C10: wildcard dominance in UsedFields -/

theorem uf_add_field_preserves_star (fs : List Str) (k : Str) :
    ∀ u : UFMap, u k = some {starStr} →
      (fs.foldl (fun u fld => uf_add_field u k fld) u) k = some {starStr} := by
  induction fs with
  | nil => intro u h; simpa using h
  | cons f rest ih =>
      intro u h
      simp only [List.foldl_cons]
      apply ih
      simp [uf_add_field, h]

/-- C10: `mark_all_fields` replaces whatever was previously recorded for a
tracking key with exactly the singleton wildcard set, and any sequence of
subsequent `add_field` calls on that key leaves the set equal to the
singleton wildcard set. -/
theorem c10_wildcard_dominance (uf : UFMap) (k : Str) (fs : List Str) :
    (uf_mark_all_fields uf k) k = some {starStr} ∧
    (fs.foldl (fun u fld => uf_add_field u k fld) (uf_mark_all_fields uf k)) k
      = some {starStr} := by
  constructor
  · simp [uf_mark_all_fields]
  · exact uf_add_field_preserves_star fs k _ (by simp [uf_mark_all_fields])

/-! ## Claim C1: the Dynamic Field Inferrer mutates in place -/

theorem infer_exEmpty_eval :
    inferCatalog exEmptyLineage exEmptyCatalog =
      [⟨"EmptyModel".toList, "program".toList, ["field1".toList], []⟩] := by
  simp [inferCatalog, create_dynamic_models_from_lineage, phase2, dynamicFields,
    lineageRefs, entryRefs, exEmptyLineage, exEmptyCatalog, fieldCandidate, candRoot,
    candPair, headSplitD, lastSplitD, pySplit, splitOnce, rsplitOnce, allPaths,
    allPathsAux, pyPathJoin, findPath, firstMatch, dfInsert, updatePath, replaceFirst,
    sortStrs, insSorted, strLe, programType, collapseDD, swapHash]

/-- C1 counterexample: the claim says the operation never mutates its input
catalog, but on the concrete one-model catalog with a property-less
`EmptyModel` and a lineage targeting `EmptyModel.field1`, the post-state of
the catalog argument differs from the input (the model gained `field1`). -/
theorem c1_counterexample :
    inferCatalog exEmptyLineage exEmptyCatalog ≠ exEmptyCatalog := by
  rw [infer_exEmpty_eval]
  intro h
  simp [exEmptyCatalog] at h

/-- C1 (amended): `create_dynamic_models_from_lineage` updates the catalog
argument in place and always returns the empty list rather than a new
catalog; the inferred structure is found in the post-state of the input
argument (on the concrete example, `EmptyModel` now carries the inferred
property `field1`). -/
theorem c1_amended_thm :
    (∀ (lineage : List LineageEntry) (ms : List MDict),
        (create_dynamic_models_from_lineage lineage ms).2 = []) ∧
    inferCatalog exEmptyLineage exEmptyCatalog =
      [⟨"EmptyModel".toList, "program".toList, ["field1".toList], []⟩] :=
  ⟨fun _ _ => rfl, infer_exEmpty_eval⟩

/-! ## Claim C3: the candidate pair computed by the inferrer -/

/-- C3 counterexample: the claim says `Parent.Child#x.code` accumulates the
pending field `code` under the model path `Parent.Child`; the code
accumulates it under `Parent` (the root model), and creates no pending entry
for `Parent.Child` at all. -/
theorem c3_counterexample :
    dynamicFields exParentChild exNestedInstanceLineage =
      [("Parent".toList, ["code".toList])] ∧
    ("Parent".toList : Str) ≠ "Parent.Child".toList := by
  constructor
  · simp [dynamicFields, lineageRefs, entryRefs, exNestedInstanceLineage, exParentChild,
      fieldCandidate, candRoot, candPair, headSplitD, lastSplitD, pySplit, splitOnce,
      rsplitOnce, allPaths, allPathsAux, pyPathJoin, findPath, firstMatch, dfInsert,
      collapseDD, swapHash]
  · decide

/-! ## Claim C4: field-bearing classification in the Usage Extractor -/

/-- C4 counterexample: the claim says the constant source string `v1.0`
(with no catalog model named `v1.0` or `v1`) is not field-bearing and
records no UsedFields entry; the extractor parses it as model `v1` with
field `0` and records the entry `v1 ↦ set containing 0`. -/
theorem c4_counterexample :
    extract_referenced_fields exLiteralLineage exTargetCatalog "v1".toList
      = some {"0".toList} ∧
    "v1".toList ∉ allPaths exTargetCatalog ∧
    "v1.0".toList ∉ allPaths exTargetCatalog := by
  refine ⟨?_, ?_, ?_⟩
  · simp [extract_referenced_fields, lineageRefs, entryRefs, exLiteralLineage,
      exTargetCatalog, erfStep, parse_reference, splitOnce, trackingKey, allPaths,
      allPathsAux, pyPathJoin, starStr]
  · simp [allPaths, allPathsAux, pyPathJoin, exTargetCatalog]
  · simp [allPaths, allPathsAux, pyPathJoin, exTargetCatalog]

/-- C4 (amended): a reference of a single-entry lineage receives a UsedFields
entry for its tracking key iff its parsed model is non-empty and (its parsed
field is not None, or its bare model is a known catalog path, or its parsed
instance is not None).  In particular `v1.0` parses as model `v1`, field `0`,
so it is field-bearing even though `v1.0` is not a catalog path. -/
theorem c4_amended_thm (ms : List MDict) (ref : Str) :
    extract_referenced_fields [⟨[ref], [], none⟩] ms (trackingKey ref) ≠ none ↔
      ((parse_reference ref).1 ≠ [] ∧
        ((parse_reference ref).2.2 ≠ none ∨
         (parse_reference ref).1 ∈ allPaths ms ∨
         (parse_reference ref).2.1 ≠ none)) := by
  have hrefs : lineageRefs [⟨[ref], [], none⟩] = [ref, []] := rfl
  unfold extract_referenced_fields
  rw [hrefs]
  simp only [List.foldl_cons, List.foldl_nil]
  have hempty : ∀ uf : UFMap, erfStep (allPaths ms) uf [] = uf := by
    intro uf
    simp [erfStep, parse_reference, splitOnce]
  rw [hempty]
  by_cases hg : (parse_reference ref).1 ≠ [] ∧
      ((parse_reference ref).2.2 ≠ none ∨
       (parse_reference ref).1 ∈ allPaths ms ∨
       (parse_reference ref).2.1 ≠ none)
  · simp only [hg, iff_true]
    unfold erfStep
    rw [if_pos hg]
    cases hf : (parse_reference ref).2.2 with
    | none => simp [hf]; exact hg.1
    | some fld => simp [hf]; exact hg.1
  · simp only [hg, iff_false]
    unfold erfStep
    rw [if_neg hg]
    simp

/-- C4 witness: the amended classification applied to the concrete reference
`v1.0` against the `Target`-only catalog — the entry exists. -/
theorem c4_witness :
    extract_referenced_fields [⟨["v1.0".toList], [], none⟩] exTargetCatalog
      (trackingKey "v1.0".toList) ≠ none :=
  (c4_amended_thm exTargetCatalog "v1.0".toList).mpr
    ⟨by decide, Or.inl (by decide)⟩

/-! ## String lemmas for the candidate-pair analysis -/

theorem headSplitD_eq_takeWhile (sep : Char) (s : Str) :
    headSplitD sep s = s.takeWhile (· != sep) := by
  induction s with
  | nil => simp [headSplitD, pySplit]
  | cons c rest ih =>
      simp only [headSplitD, pySplit] at ih ⊢
      by_cases hc : c = sep
      · subst hc
        simp [List.takeWhile_cons]
      · rw [if_neg hc]
        cases h : pySplit sep rest with
        | nil => exact absurd h (pySplit_ne_nil sep rest)
        | cons s0 ss =>
            rw [h] at ih
            simp only [List.headD_cons] at ih ⊢
            have hb : (c != sep) = true := by simp [hc]
            simp [List.takeWhile_cons, hb, ih]

theorem takeWhile_ne_append (sep : Char) (a b : Str) :
    ((a ++ sep :: b).takeWhile (· != sep)) = a.takeWhile (· != sep) := by
  induction a with
  | nil => simp [List.takeWhile_cons]
  | cons c as ih =>
      by_cases hc : c = sep
      · subst hc; simp [List.takeWhile_cons]
      · have hb : (c != sep) = true := by simp [hc]
        simp [List.takeWhile_cons, hb, ih]

theorem collapseDD_takeWhile (s : Str) :
    (collapseDD s).takeWhile (· != '.') = s.takeWhile (· != '.') := by
  induction s using collapseDD.induct with
  | case1 => simp [collapseDD]
  | case2 c => simp [collapseDD]
  | case3 c1 c2 rest hdd ih =>
      obtain ⟨h1, h2⟩ := hdd
      subst h1 h2
      simp [collapseDD, List.takeWhile_cons]
  | case4 c1 c2 rest hdd ih =>
      simp only [collapseDD, if_neg hdd]
      by_cases hc1 : c1 = '.'
      · subst hc1; simp [List.takeWhile_cons]
      · have hb : (c1 != '.') = true := by simp [hc1]
        simp [List.takeWhile_cons, hb, ih]

theorem dot_mem_collapseDD (s : Str) (h : '.' ∈ s) : '.' ∈ collapseDD s := by
  induction s using collapseDD.induct with
  | case1 => simp at h
  | case2 c => simpa [collapseDD] using h
  | case3 c1 c2 rest hdd ih => simp [collapseDD, hdd]
  | case4 c1 c2 rest hdd ih =>
      simp only [collapseDD, if_neg hdd]
      rcases List.mem_cons.1 h with h1 | h1
      · simp [← h1]
      · simp only [List.mem_cons]
        right
        exact ih h1

theorem map_swapHash_takeWhile (s : Str) :
    (s.map swapHash).takeWhile (· != '.') =
      (s.takeWhile (· != '.')).takeWhile (· != '#') := by
  induction s with
  | nil => simp
  | cons c rest ih =>
      by_cases hh : c = '#'
      · subst hh
        simp [swapHash, List.takeWhile_cons]
      · by_cases hd : c = '.'
        · subst hd
          simp [swapHash, List.takeWhile_cons]
        · have hsw : swapHash c = c := by simp [swapHash, hh]
          have hb1 : (c != '.') = true := by simp [hd]
          have hb2 : (c != '#') = true := by simp [hh]
          simp [List.map_cons, hsw, List.takeWhile_cons, hb1, hb2, ih]

theorem candRoot_eq_takeWhile (ref : Str) :
    candRoot ref = (ref.takeWhile (· != '.')).takeWhile (· != '#') := by
  unfold candRoot
  rw [headSplitD_eq_takeWhile, headSplitD_eq_takeWhile]

theorem lastSplit_spec (s : Str) (h : '.' ∈ s) :
    s = joinSep '.' (pySplit '.' s).dropLast ++ '.' :: lastSplitD '.' s ∧
    '.' ∉ lastSplitD '.' s := by
  constructor
  · have hj := joinSep_pySplit '.' s
    have hd := joinSep_dropLast_append '.' (pySplit '.' s) (pySplit_length_ge_two '.' s h)
    nth_rewrite 1 [← hj]
    exact hd
  · exact sep_not_mem_getLast '.' s

theorem fieldCandidate_some_inv (ms : List MDict) (ref mp fld : Str)
    (h : fieldCandidate ms ref = some (mp, fld)) :
    '.' ∈ ref ∧ candRoot ref ∈ allPaths ms ∧ candPair ref = some (mp, fld) := by
  unfold fieldCandidate at h
  by_cases hdot : '.' ∈ ref
  · rw [if_pos hdot] at h
    by_cases hroot : candRoot ref ∈ allPaths ms
    · rw [if_pos hroot] at h
      refine ⟨hdot, hroot, ?_⟩
      cases hcp : candPair ref with
      | none => rw [hcp] at h; simp at h
      | some p =>
          rcases p with ⟨mp0, fld0⟩
          rw [hcp] at h
          cases hfp : findPath ms (pySplit '.' mp0) with
          | none =>
              simp only [hfp] at h
              simp at h
              rw [h.1, h.2]
          | some m =>
              simp only [hfp] at h
              by_cases hpr : m.props = []
              · simp only [hpr, if_pos rfl] at h
                simp at h
                rw [h.1, h.2]
              · simp [hpr] at h
    · rw [if_neg hroot] at h; simp at h
  · rw [if_neg hdot] at h
    simp at h

/-- C3 (amended): when the Dynamic Field Inferrer accepts a candidate
`(modelPath, fieldName)` pair for a reference, then without a `#` the pair is
the last-dot split of the reference (modelPath is the text before the last
dot, fieldName the text after it); with a `#`, the modelPath collapses to the
reference's root model name (`ref.split('.')[0].split('#')[0]`) — not the
nested container path — and the fieldName is the text after the last dot.
So instance markers do change which model path receives the inferred field:
`Parent.Child#x.code` accumulates `code` under `Parent`. -/
theorem c3_amended_thm (ms : List MDict) (ref mp fld : Str)
    (h : fieldCandidate ms ref = some (mp, fld)) :
    ('#' ∉ ref → ref = mp ++ '.' :: fld ∧ '.' ∉ fld) ∧
    ('#' ∈ ref → mp = candRoot ref ∧ ∃ pre, ref = pre ++ '.' :: fld ∧ '.' ∉ fld) := by
  obtain ⟨hdot, hroot, hcp⟩ := fieldCandidate_some_inv ms ref mp fld h
  constructor
  · intro hnh
    unfold candPair at hcp
    rw [if_neg hnh] at hcp
    exact rsplitOnce_eq_some '.' ref mp fld hcp
  · intro hh
    unfold candPair at hcp
    rw [if_pos hh] at hcp
    cases hr : rsplitOnce '.' (collapseDD (ref.map swapHash)) with
    | none => rw [hr] at hcp; simp at hcp
    | some p =>
        rcases p with ⟨a, b⟩
        rw [hr] at hcp
        simp only [Option.some.injEq, Prod.mk.injEq] at hcp
        obtain ⟨hmp, hfld⟩ := hcp
        constructor
        · have hw := rsplitOnce_eq_some '.' _ a b hr
          rw [← hmp, headSplitD_eq_takeWhile]
          have h1 : List.takeWhile (· != '.') a
              = List.takeWhile (· != '.') (collapseDD (ref.map swapHash)) := by
            rw [hw.1, takeWhile_ne_append]
          rw [h1, collapseDD_takeWhile, map_swapHash_takeWhile, candRoot_eq_takeWhile]
        · have hls := lastSplit_spec ref hdot
          exact ⟨joinSep '.' (pySplit '.' ref).dropLast, by rw [← hfld]; exact hls.1,
                 by rw [← hfld]; exact hls.2⟩

/-- C3 witness: the amended characterisation applied to the concrete
reference `Parent.Child#x.code` against the `Parent`/`Child` catalog — the
accepted pair is `(Parent, code)`, with `Parent` the root model name. -/
theorem c3_witness :
    ("Parent".toList : Str) = candRoot "Parent.Child#x.code".toList ∧
    ∃ pre, ("Parent.Child#x.code".toList : Str) = pre ++ '.' :: "code".toList ∧
      '.' ∉ "code".toList :=
  (c3_amended_thm exParentChild "Parent.Child#x.code".toList
      "Parent".toList "code".toList
      (by simp [fieldCandidate, candRoot, candPair, headSplitD, lastSplitD, pySplit,
        splitOnce, rsplitOnce, allPaths, allPathsAux, pyPathJoin, findPath, firstMatch,
        collapseDD, swapHash, exParentChild])).2 (by decide)


/-! ## Structural lemmas about the catalog update -/

theorem firstMatch_name (p : Str) (ms : List MDict) (m : MDict)
    (h : firstMatch p ms = some m) : m.name = p := by
  induction ms with
  | nil => simp [firstMatch] at h
  | cons m0 rest ih =>
      simp only [firstMatch] at h
      by_cases hn : m0.name = p
      · rw [if_pos hn] at h
        cases h
        exact hn
      · rw [if_neg hn] at h
        exact ih h

theorem firstMatch_isSome_iff (p : Str) (ms : List MDict) :
    (∃ m, firstMatch p ms = some m) ↔ p ∈ topNames ms := by
  induction ms with
  | nil => simp [firstMatch, topNames]
  | cons m0 rest ih =>
      by_cases hn : m0.name = p
      · simp [firstMatch, topNames, hn]
      · have h1 : ∀ m, firstMatch p (m0 :: rest) = some m ↔ firstMatch p rest = some m := by
          intro m
          simp [firstMatch, if_neg hn]
        constructor
        · intro h
          obtain ⟨m, hm⟩ := h
          have := ih.1 ⟨m, (h1 m).1 hm⟩
          simp only [topNames, List.map_cons, List.mem_cons]
          right
          simpa [topNames] using this
        · intro h
          simp only [topNames, List.map_cons, List.mem_cons] at h
          rcases h with h | h
          · exact absurd h.symm hn
          · obtain ⟨m, hm⟩ := ih.2 (by simpa [topNames] using h)
            exact ⟨m, (h1 m).2 hm⟩

theorem firstMatch_replaceFirst (p q : Str) (f : MDict → MDict)
    (hf : ∀ m, (f m).name = m.name) (ms : List MDict) :
    firstMatch q (replaceFirst p f ms) =
      if q = p then (firstMatch p ms).map f else firstMatch q ms := by
  induction ms with
  | nil => simp [firstMatch, replaceFirst]
  | cons m0 rest ih =>
      simp only [replaceFirst]
      by_cases hn : m0.name = p
      · rw [if_pos hn]
        by_cases hq : q = p
        · rw [if_pos hq]
          have h1 : (f m0).name = q := by rw [hf, hn, hq]
          have h2 : m0.name = p := hn
          simp [firstMatch, h1, h2]
        · rw [if_neg hq]
          have h1 : ¬ (f m0).name = q := by
            rw [hf, hn]
            exact fun h => hq h.symm
          have h2 : ¬ m0.name = q := by
            rw [hn]
            exact fun h => hq h.symm
          simp only [firstMatch, if_neg h1, if_neg h2]
      · rw [if_neg hn]
        by_cases hq : q = p
        · rw [if_pos hq]
          have h2 : ¬ m0.name = q := fun h => hn (h.trans hq)
          have h2p : ¬ m0.name = p := hn
          simp only [firstMatch, if_neg h2, if_neg h2p]
          rw [ih, if_pos hq]
        · rw [if_neg hq]
          simp only [firstMatch]
          by_cases hn2 : m0.name = q
          · rw [if_pos hn2, if_pos hn2]
          · rw [if_neg hn2, if_neg hn2, ih, if_neg hq]

theorem topNames_replaceFirst (p : Str) (f : MDict → MDict)
    (hf : ∀ m, (f m).name = m.name) (ms : List MDict) :
    topNames (replaceFirst p f ms) = topNames ms := by
  induction ms with
  | nil => simp [replaceFirst]
  | cons m0 rest ih =>
      simp only [replaceFirst]
      by_cases hn : m0.name = p
      · rw [if_pos hn]
        simp [topNames, hf]
      · rw [if_neg hn]
        simp only [topNames, List.map_cons] at ih ⊢
        rw [ih]

theorem firstMatch_append (p : Str) (ms ms2 : List MDict) :
    firstMatch p (ms ++ ms2) =
      match firstMatch p ms with
      | some m => some m
      | none => firstMatch p ms2 := by
  induction ms with
  | nil => simp [firstMatch]
  | cons m0 rest ih =>
      simp only [List.cons_append, firstMatch]
      by_cases hn : m0.name = p
      · simp [hn]
      · simp only [if_neg hn]
        exact ih

theorem findPath_append_of_some (ms ms2 : List MDict) (parts : List Str) (m : MDict)
    (h : findPath ms parts = some m) : findPath (ms ++ ms2) parts = some m := by
  cases parts with
  | nil => simp [findPath] at h
  | cons q qs =>
      cases qs with
      | nil =>
          simp only [findPath] at h ⊢
          rw [firstMatch_append, h]
      | cons q2 qs2 =>
          simp only [findPath] at h ⊢
          cases h0 : firstMatch q ms with
          | none => rw [h0] at h; simp at h
          | some m0 =>
              rw [h0] at h
              rw [firstMatch_append, h0]
              exact h

theorem updatePath_preserves (parts' : List Str) :
    ∀ (ms : List MDict) (props' : List Str) (ty : Str) (parts : List Str) (m : MDict),
      findPath ms parts = some m →
      ∃ m', findPath (updatePath ms parts' props' ty) parts = some m' ∧
        (m'.props = m.props ∨ m.props = []) := by
  induction parts' with
  | nil =>
      intro ms props' ty parts m h
      exact ⟨m, h, Or.inl rfl⟩
  | cons p rest' ih =>
      intro ms props' ty parts m h
      cases rest' with
      | nil =>
          cases hfm : firstMatch p ms with
          | none =>
              simp only [updatePath, hfm]
              exact ⟨m, findPath_append_of_some ms _ parts m h, Or.inl rfl⟩
          | some m0 =>
              simp only [updatePath, hfm]
              have hf : ∀ mm : MDict,
                  ((fun mm => if mm.props = [] then { mm with props := props' } else mm) mm).name
                    = mm.name := by
                intro mm
                by_cases hp : mm.props = [] <;> simp [hp]
              cases parts with
              | nil => simp [findPath] at h
              | cons q qs =>
                  cases qs with
                  | nil =>
                      simp only [findPath] at h ⊢
                      rw [firstMatch_replaceFirst p q _ hf]
                      by_cases hq : q = p
                      · rw [if_pos hq, ← hq, h]
                        simp only [Option.map_some']
                        refine ⟨_, rfl, ?_⟩
                        by_cases hp : m.props = []
                        · exact Or.inr hp
                        · rw [if_neg hp]
                          exact Or.inl rfl
                      · rw [if_neg hq]
                        exact ⟨m, h, Or.inl rfl⟩
                  | cons q2 qs2 =>
                      simp only [findPath] at h ⊢
                      cases h0 : firstMatch q ms with
                      | none => rw [h0] at h; simp at h
                      | some mq =>
                          rw [h0] at h
                          rw [firstMatch_replaceFirst p q _ hf]
                          by_cases hq : q = p
                          · rw [if_pos hq, ← hq, h0]
                            simp only [Option.map_some']
                            by_cases hp : mq.props = []
                            · rw [if_pos hp]
                              exact ⟨m, h, Or.inl rfl⟩
                            · rw [if_neg hp]
                              exact ⟨m, h, Or.inl rfl⟩
                          · rw [if_neg hq, h0]
                            exact ⟨m, h, Or.inl rfl⟩
      | cons p2 rest'' =>
          cases hfm : firstMatch p ms with
          | none =>
              simp only [updatePath, hfm]
              exact ⟨m, findPath_append_of_some ms _ parts m h, Or.inl rfl⟩
          | some m0 =>
              simp only [updatePath, hfm]
              have hf : ∀ mm : MDict,
                  ((fun mm : MDict => { mm with
                      children := updatePath mm.children (p2 :: rest'') props' mm.type }) mm).name
                    = mm.name := fun mm => rfl
              cases parts with
              | nil => simp [findPath] at h
              | cons q qs =>
                  cases qs with
                  | nil =>
                      simp only [findPath] at h ⊢
                      rw [firstMatch_replaceFirst p q _ hf]
                      by_cases hq : q = p
                      · rw [if_pos hq, ← hq, h]
                        simp only [Option.map_some']
                        exact ⟨_, rfl, Or.inl rfl⟩
                      · rw [if_neg hq]
                        exact ⟨m, h, Or.inl rfl⟩
                  | cons q2 qs2 =>
                      simp only [findPath] at h ⊢
                      cases h0 : firstMatch q ms with
                      | none => rw [h0] at h; simp at h
                      | some mq =>
                          rw [h0] at h
                          rw [firstMatch_replaceFirst p q _ hf]
                          by_cases hq : q = p
                          · rw [if_pos hq, ← hq, h0]
                            simp only [Option.map_some']
                            exact ih mq.children props' mq.type (q2 :: qs2) m h
                          · rw [if_neg hq, h0]
                            exact ⟨m, h, Or.inl rfl⟩

theorem sortStrs_ne_nil (l : List Str) (h : l ≠ []) : sortStrs l ≠ [] := by
  cases l with
  | nil => exact absurd rfl h
  | cons x xs =>
      simp only [sortStrs, List.foldr_cons]
      cases h2 : List.foldr insSorted [] xs with
      | nil => simp [insSorted]
      | cons y ys =>
          simp only [insSorted]
          by_cases hle : strLe x y
          · simp [hle]
          · simp [hle]

theorem findPath_createChain (parts : List Str) (props : List Str) (ty : Str)
    (h : parts ≠ []) :
    ∃ leaf, findPath [createChain parts props ty] parts = some leaf ∧ leaf.props = props := by
  induction parts with
  | nil => exact absurd rfl h
  | cons p rest ih =>
      cases rest with
      | nil =>
          refine ⟨⟨p, ty, props, []⟩, ?_, rfl⟩
          simp [createChain, findPath, firstMatch]
      | cons q rest2 =>
          obtain ⟨leaf, hl, hp⟩ := ih (by simp)
          refine ⟨leaf, ?_, hp⟩
          simp only [createChain, findPath, firstMatch, if_pos rfl]
          exact hl

theorem updatePath_fills (parts : List Str) :
    ∀ (ms : List MDict) (props : List Str) (ty : Str), parts ≠ [] → props ≠ [] →
      ∃ m', findPath (updatePath ms parts props ty) parts = some m' ∧ m'.props ≠ [] := by
  induction parts with
  | nil => intro ms props ty h1 h2; exact absurd rfl h1
  | cons p rest ih =>
      intro ms props ty h1 h2
      cases rest with
      | nil =>
          cases hfm : firstMatch p ms with
          | none =>
              simp only [updatePath, hfm, findPath]
              rw [firstMatch_append, hfm]
              refine ⟨⟨p, ty, props, []⟩, ?_, h2⟩
              simp [firstMatch]
          | some m0 =>
              simp only [updatePath, hfm, findPath]
              have hf : ∀ mm : MDict,
                  ((fun mm => if mm.props = [] then { mm with props := props } else mm) mm).name
                    = mm.name := by
                intro mm
                by_cases hp : mm.props = [] <;> simp [hp]
              rw [firstMatch_replaceFirst p p _ hf, if_pos rfl, hfm]
              simp only [Option.map_some']
              by_cases hp : m0.props = []
              · rw [if_pos hp]
                exact ⟨_, rfl, h2⟩
              · rw [if_neg hp]
                exact ⟨m0, rfl, hp⟩
      | cons q rest2 =>
          cases hfm : firstMatch p ms with
          | none =>
              simp only [updatePath, hfm, findPath]
              rw [firstMatch_append, hfm]
              obtain ⟨leaf, hl, hp⟩ := findPath_createChain (p :: q :: rest2) props ty (by simp)
              simp only [findPath] at hl
              cases hc : firstMatch p [createChain (p :: q :: rest2) props ty] with
              | none =>
                  rw [hc] at hl
                  simp at hl
              | some mc =>
                  rw [hc] at hl
                  simp only [Option.some.injEq] at hl
                  refine ⟨leaf, ?_, by rw [hp]; exact h2⟩
                  simpa using hl
          | some m0 =>
              simp only [updatePath, hfm, findPath]
              have hf : ∀ mm : MDict,
                  ((fun mm : MDict => { mm with
                      children := updatePath mm.children (q :: rest2) props mm.type }) mm).name
                    = mm.name := fun mm => rfl
              rw [firstMatch_replaceFirst p p _ hf, if_pos rfl, hfm]
              simp only [Option.map_some']
              exact ih m0.children props m0.type (by simp) h2

theorem updatePath_topNames (parts : List Str) (ms : List MDict) (props : List Str)
    (ty : Str) (h : parts.headD [] ∈ topNames ms) :
    topNames (updatePath ms parts props ty) = topNames ms := by
  cases parts with
  | nil => rfl
  | cons p rest =>
      simp only [List.headD_cons] at h
      obtain ⟨m0, hm0⟩ := (firstMatch_isSome_iff p ms).2 h
      cases rest with
      | nil =>
          simp only [updatePath, hm0]
          apply topNames_replaceFirst
          intro mm
          by_cases hp : mm.props = [] <;> simp [hp]
      | cons q rest2 =>
          simp only [updatePath, hm0]
          apply topNames_replaceFirst
          intro mm
          rfl

theorem allPathsAux_append (pfx : Str) (a b : List MDict) :
    allPathsAux pfx (a ++ b) = allPathsAux pfx a ++ allPathsAux pfx b := by
  induction a with
  | nil => simp [allPathsAux]
  | cons m rest ih =>
      simp only [List.cons_append, allPathsAux]
      rw [ih]
      simp

theorem allPathsAux_replaceFirst_propsOnly (pfx p : Str) (f : MDict → MDict)
    (hn : ∀ m, (f m).name = m.name) (hc : ∀ m, (f m).children = m.children)
    (ms : List MDict) :
    allPathsAux pfx (replaceFirst p f ms) = allPathsAux pfx ms := by
  induction ms with
  | nil => simp [replaceFirst]
  | cons m0 rest ih =>
      simp only [replaceFirst]
      by_cases h : m0.name = p
      · rw [if_pos h]
        simp only [allPathsAux, hn, hc]
      · rw [if_neg h]
        simp only [allPathsAux]
        rw [ih]

theorem allPathsAux_replaceFirst_mono (pfx p : Str) (f : MDict → MDict)
    (hn : ∀ m, (f m).name = m.name)
    (hc : ∀ (m : MDict) (pfx2 : Str),
      allPathsAux pfx2 m.children ⊆ allPathsAux pfx2 (f m).children)
    (ms : List MDict) :
    allPathsAux pfx ms ⊆ allPathsAux pfx (replaceFirst p f ms) := by
  induction ms with
  | nil => simp [replaceFirst]
  | cons m0 rest ih =>
      simp only [replaceFirst]
      by_cases h : m0.name = p
      · rw [if_pos h]
        simp only [allPathsAux, hn]
        intro x hx
        rcases List.mem_cons.1 hx with hx | hx
        · rw [hx]; exact List.mem_cons_self _ _
        · rcases List.mem_append.1 hx with hx | hx
          · exact List.mem_cons_of_mem _ (List.mem_append.2 (Or.inl (hc m0 _ hx)))
          · exact List.mem_cons_of_mem _ (List.mem_append.2 (Or.inr hx))
      · rw [if_neg h]
        simp only [allPathsAux]
        intro x hx
        rcases List.mem_cons.1 hx with hx | hx
        · rw [hx]; exact List.mem_cons_self _ _
        · rcases List.mem_append.1 hx with hx | hx
          · exact List.mem_cons_of_mem _ (List.mem_append.2 (Or.inl hx))
          · exact List.mem_cons_of_mem _ (List.mem_append.2 (Or.inr (ih hx)))

theorem updatePath_allPaths_mono (parts : List Str) :
    ∀ (ms : List MDict) (props : List Str) (ty : Str) (pfx : Str),
      allPathsAux pfx ms ⊆ allPathsAux pfx (updatePath ms parts props ty) := by
  induction parts with
  | nil => intro ms props ty pfx; simp [updatePath]
  | cons p rest ih =>
      intro ms props ty pfx
      cases rest with
      | nil =>
          cases hfm : firstMatch p ms with
          | none =>
              simp only [updatePath, hfm]
              rw [allPathsAux_append]
              exact List.subset_append_left _ _
          | some m0 =>
              simp only [updatePath, hfm]
              rw [allPathsAux_replaceFirst_propsOnly pfx p _
                (fun mm => by by_cases hp : mm.props = [] <;> simp [hp])
                (fun mm => by by_cases hp : mm.props = [] <;> simp [hp]) ms]
              exact fun x hx => hx
      | cons q rest2 =>
          cases hfm : firstMatch p ms with
          | none =>
              simp only [updatePath, hfm]
              rw [allPathsAux_append]
              exact List.subset_append_left _ _
          | some m0 =>
              simp only [updatePath, hfm]
              apply allPathsAux_replaceFirst_mono
              · intro mm
                rfl
              · intro mm pfx2
                exact ih mm.children props mm.type pfx2

/-! ## Path-shape lemmas -/

theorem pyPathJoin_dot (pfx n : Str) (h : pfx ≠ []) : '.' ∈ pyPathJoin pfx n := by
  simp only [pyPathJoin, if_neg h]
  simp

theorem pyPathJoin_ne_nil (pfx n : Str) (h : pfx ≠ []) : pyPathJoin pfx n ≠ [] := by
  simp only [pyPathJoin, if_neg h]
  cases pfx with
  | nil => exact absurd rfl h
  | cons c cs => simp

theorem allPathsAux_nested_has_dot :
    ∀ (pfx : Str) (ms : List MDict), pfx ≠ [] → ∀ p ∈ allPathsAux pfx ms, '.' ∈ p := by
  intro pfx ms
  induction pfx, ms using allPathsAux.induct with
  | case1 pfx => simp [allPathsAux]
  | case2 pfx m rest ih1 ih2 =>
      intro hne p hp
      simp only [allPathsAux, List.mem_cons, List.mem_append] at hp
      rcases hp with hp | hp | hp
      · rw [hp]
        exact pyPathJoin_dot pfx m.name hne
      · exact ih1 (pyPathJoin_ne_nil pfx m.name hne) p hp
      · exact ih2 hne p hp

theorem topNames_subset_allPaths (ms : List MDict) :
    ∀ p ∈ topNames ms, p ∈ allPaths ms := by
  induction ms with
  | nil => simp [topNames]
  | cons m0 rest ih =>
      intro p hp
      simp only [topNames, List.map_cons, List.mem_cons] at hp
      simp only [allPaths, allPathsAux, List.mem_cons, List.mem_append]
      rcases hp with hp | hp
      · left
        rw [hp]
        rfl
      · right; right
        exact ih p (by simpa [topNames] using hp)

theorem allPaths_dotfree_top (ms : List MDict) (hH : [] ∉ topNames ms) :
    ∀ p ∈ allPaths ms, '.' ∉ p → p ∈ topNames ms := by
  induction ms with
  | nil => simp [allPaths, allPathsAux]
  | cons m0 rest ih =>
      intro p hp hdot
      simp only [allPaths, allPathsAux, List.mem_cons, List.mem_append] at hp
      have hjoin : pyPathJoin [] m0.name = m0.name := by simp [pyPathJoin]
      have hname : m0.name ≠ [] := by
        intro hcon
        exact hH (by simp [topNames, hcon])
      rcases hp with hp | hp | hp
      · rw [hjoin] at hp
        simp [topNames, hp]
      · rw [hjoin] at hp
        exact absurd (allPathsAux_nested_has_dot m0.name m0.children hname p hp) hdot
      · have hH2 : [] ∉ topNames rest := by
          intro hcon
          exact hH (by simp [topNames] at hcon ⊢; right; exact hcon)
        have := ih hH2 p hp hdot
        simp [topNames] at this ⊢
        right
        exact this

theorem mem_of_mem_takeWhile {p : Char → Bool} {x : Char} :
    ∀ {l : Str}, x ∈ l.takeWhile p → x ∈ l := by
  intro l
  induction l with
  | nil => simp
  | cons c rest ih =>
      intro h
      rw [List.takeWhile_cons] at h
      by_cases hc : p c
      · rw [if_pos hc] at h
        rcases List.mem_cons.1 h with h | h
        · simp [h]
        · exact List.mem_cons_of_mem c (ih h)
      · rw [if_neg hc] at h
        simp at h

theorem dot_not_mem_candRoot (ref : Str) : '.' ∉ candRoot ref := by
  rw [candRoot_eq_takeWhile]
  intro h
  have h2 := mem_of_mem_takeWhile h
  have := List.mem_takeWhile_imp h2
  simp at this

theorem pySplit_of_not_mem (sep : Char) (s : Str) (h : sep ∉ s) :
    pySplit sep s = [s] := by
  induction s with
  | nil => rfl
  | cons c rest ih =>
      simp only [List.mem_cons] at h
      push_neg at h
      have hc : ¬ c = sep := fun h2 => h.1 h2.symm
      simp only [pySplit, if_neg hc, ih h.2]

theorem candPair_hash_root (ref mp fld : Str) (hh : '#' ∈ ref)
    (hcp : candPair ref = some (mp, fld)) : mp = candRoot ref := by
  unfold candPair at hcp
  rw [if_pos hh] at hcp
  cases hr : rsplitOnce '.' (collapseDD (ref.map swapHash)) with
  | none => rw [hr] at hcp; simp at hcp
  | some p =>
      rcases p with ⟨a, b⟩
      rw [hr] at hcp
      simp only [Option.some.injEq, Prod.mk.injEq] at hcp
      have hw := rsplitOnce_eq_some '.' _ a b hr
      rw [← hcp.1, headSplitD_eq_takeWhile]
      have h1 : List.takeWhile (· != '.') a
          = List.takeWhile (· != '.') (collapseDD (ref.map swapHash)) := by
        rw [hw.1, takeWhile_ne_append]
      rw [h1, collapseDD_takeWhile, map_swapHash_takeWhile, candRoot_eq_takeWhile]

theorem fieldCandidate_head_root (ms : List MDict) (ref mp fld : Str)
    (h : fieldCandidate ms ref = some (mp, fld)) :
    (pySplit '.' mp).headD [] = candRoot ref := by
  obtain ⟨hdot, hroot, hcp⟩ := fieldCandidate_some_inv ms ref mp fld h
  by_cases hh : '#' ∈ ref
  · have hmp := candPair_hash_root ref mp fld hh hcp
    have hnd : '.' ∉ mp := by
      rw [hmp]
      exact dot_not_mem_candRoot ref
    rw [pySplit_of_not_mem '.' mp hnd]
    simpa using hmp
  · unfold candPair at hcp
    rw [if_neg hh] at hcp
    have hw := rsplitOnce_eq_some '.' ref mp fld hcp
    have h1 : (pySplit '.' mp).headD [] = List.takeWhile (· != '.') mp := by
      rw [← headSplitD_eq_takeWhile]
      rfl
    rw [h1]
    have h2 : List.takeWhile (· != '.') ref = List.takeWhile (· != '.') mp := by
      rw [hw.1, takeWhile_ne_append]
    have h3 : List.takeWhile (· != '#')
        (List.takeWhile (· != '.') ref) = List.takeWhile (· != '.') ref := by
      apply List.takeWhile_eq_self_iff.2
      intro x hx
      have hxr : x ∈ ref := mem_of_mem_takeWhile hx
      simp only [bne_iff_ne, ne_eq]
      intro hcon
      rw [hcon] at hxr
      exact hh hxr
    rw [candRoot_eq_takeWhile, h3, h2]

/-! ## Phase-2 fold lemmas -/

theorem phase2_preserves (d : List (Str × List Str)) :
    ∀ (ms : List MDict) (parts : List Str) (m : MDict),
      findPath ms parts = some m → m.props ≠ [] →
      ∃ m', findPath (phase2 d ms) parts = some m' ∧ m'.props = m.props := by
  induction d with
  | nil => intro ms parts m h hp; exact ⟨m, h, rfl⟩
  | cons kv rest ih =>
      intro ms parts m h hp
      obtain ⟨m1, h1, hd⟩ :=
        updatePath_preserves (pySplit '.' kv.1) ms (sortStrs kv.2) programType parts m h
      have hm1 : m1.props = m.props := by
        rcases hd with hd | hd
        · exact hd
        · exact absurd hd hp
      obtain ⟨m', h', hp'⟩ := ih _ parts m1 h1 (by rw [hm1]; exact hp)
      exact ⟨m', h', by rw [hp', hm1]⟩

theorem phase2_fills (d : List (Str × List Str)) :
    ∀ (ms : List MDict), (∀ kv ∈ d, kv.2 ≠ []) →
      ∀ kv ∈ d, ∃ m', findPath (phase2 d ms) (pySplit '.' kv.1) = some m' ∧
        m'.props ≠ [] := by
  induction d with
  | nil => intro ms hvals kv hkv; simp at hkv
  | cons kv0 rest ih =>
      intro ms hvals kv hkv
      have hsplit : pySplit '.' kv0.1 ≠ [] := pySplit_ne_nil '.' kv0.1
      have hsort : sortStrs kv0.2 ≠ [] :=
        sortStrs_ne_nil kv0.2 (hvals kv0 (List.mem_cons_self _ _))
      rcases List.mem_cons.1 hkv with hkv | hkv
      · subst hkv
        obtain ⟨m1, h1, hp1⟩ :=
          updatePath_fills (pySplit '.' kv.1) ms (sortStrs kv.2) programType hsplit hsort
        obtain ⟨m', h', hp'⟩ := phase2_preserves rest _ (pySplit '.' kv.1) m1 h1 hp1
        exact ⟨m', h', by rw [hp']; exact hp1⟩
      · exact ih _ (fun kv2 hkv2 => hvals kv2 (List.mem_cons_of_mem kv0 hkv2)) kv hkv

theorem phase2_topNames (d : List (Str × List Str)) :
    ∀ (ms : List MDict), (∀ kv ∈ d, (pySplit '.' kv.1).headD [] ∈ topNames ms) →
      topNames (phase2 d ms) = topNames ms := by
  induction d with
  | nil => intro ms _; rfl
  | cons kv0 rest ih =>
      intro ms hroots
      have h1 : topNames (updatePath ms (pySplit '.' kv0.1) (sortStrs kv0.2) programType)
          = topNames ms :=
        updatePath_topNames _ ms _ _ (hroots kv0 (List.mem_cons_self _ _))
      have h2 := ih (updatePath ms (pySplit '.' kv0.1) (sortStrs kv0.2) programType)
        (fun kv hkv => by
          rw [h1]
          exact hroots kv (List.mem_cons_of_mem kv0 hkv))
      calc topNames (phase2 (kv0 :: rest) ms)
          = topNames (phase2 rest (updatePath ms (pySplit '.' kv0.1)
              (sortStrs kv0.2) programType)) := rfl
        _ = topNames (updatePath ms (pySplit '.' kv0.1) (sortStrs kv0.2) programType) := h2
        _ = topNames ms := h1

theorem phase2_allPaths_mono (d : List (Str × List Str)) :
    ∀ (ms : List MDict) (p : Str), p ∈ allPaths ms → p ∈ allPaths (phase2 d ms) := by
  induction d with
  | nil => intro ms p h; exact h
  | cons kv0 rest ih =>
      intro ms p h
      exact ih _ p (updatePath_allPaths_mono (pySplit '.' kv0.1) ms (sortStrs kv0.2)
        programType [] h)

/-! ## Lemmas about the pending-field dictionary -/

theorem dfInsert_vals (d : List (Str × List Str)) (mp fld : Str)
    (h : ∀ kv ∈ d, kv.2 ≠ []) : ∀ kv ∈ dfInsert d mp fld, kv.2 ≠ [] := by
  induction d with
  | nil =>
      intro kv hkv
      simp only [dfInsert, List.mem_singleton] at hkv
      rw [hkv]
      simp
  | cons kv0 rest ih =>
      intro kv hkv
      rcases kv0 with ⟨k0, fs0⟩
      simp only [dfInsert] at hkv
      by_cases hk : k0 = mp
      · rw [if_pos hk] at hkv
        rcases List.mem_cons.1 hkv with hkv | hkv
        · rw [hkv]
          by_cases hf : fld ∈ fs0
          · simp only [if_pos hf]
            exact h (k0, fs0) (List.mem_cons_self _ _)
          · simp only [if_neg hf]
            simp
        · exact h kv (List.mem_cons_of_mem _ hkv)
      · rw [if_neg hk] at hkv
        rcases List.mem_cons.1 hkv with hkv | hkv
        · rw [hkv]
          exact h (k0, fs0) (List.mem_cons_self _ _)
        · exact ih (fun kv2 hkv2 => h kv2 (List.mem_cons_of_mem _ hkv2)) kv hkv

theorem dfInsert_keys (d : List (Str × List Str)) (mp fld : Str) :
    ∀ kv ∈ dfInsert d mp fld, kv.1 = mp ∨ ∃ fs, (kv.1, fs) ∈ d := by
  induction d with
  | nil =>
      intro kv hkv
      simp only [dfInsert, List.mem_singleton] at hkv
      rw [hkv]
      exact Or.inl rfl
  | cons kv0 rest ih =>
      intro kv hkv
      rcases kv0 with ⟨k0, fs0⟩
      simp only [dfInsert] at hkv
      by_cases hk : k0 = mp
      · rw [if_pos hk] at hkv
        rcases List.mem_cons.1 hkv with hkv | hkv
        · rw [hkv]
          exact Or.inl hk
        · exact Or.inr ⟨kv.2, by simp [hkv]⟩
      · rw [if_neg hk] at hkv
        rcases List.mem_cons.1 hkv with hkv | hkv
        · rw [hkv]
          exact Or.inr ⟨fs0, List.mem_cons_self _ _⟩
        · rcases ih kv hkv with h | ⟨fs, hfs⟩
          · exact Or.inl h
          · exact Or.inr ⟨fs, List.mem_cons_of_mem _ hfs⟩

theorem dfInsert_mem_key (d : List (Str × List Str)) (mp fld : Str) :
    ∃ fs, (mp, fs) ∈ dfInsert d mp fld := by
  induction d with
  | nil => exact ⟨[fld], by simp [dfInsert]⟩
  | cons kv0 rest ih =>
      rcases kv0 with ⟨k0, fs0⟩
      simp only [dfInsert]
      by_cases hk : k0 = mp
      · subst hk
        rw [if_pos rfl]
        exact ⟨if fld ∈ fs0 then fs0 else fs0 ++ [fld], List.mem_cons_self _ _⟩
      · obtain ⟨fs, hfs⟩ := ih
        exact ⟨fs, by rw [if_neg hk]; exact List.mem_cons_of_mem _ hfs⟩

theorem dfInsert_key_stable (d : List (Str × List Str)) (mp fld k : Str)
    (h : ∃ fs, (k, fs) ∈ d) : ∃ fs, (k, fs) ∈ dfInsert d mp fld := by
  induction d with
  | nil => simp at h
  | cons kv0 rest ih =>
      rcases kv0 with ⟨k0, fs0⟩
      obtain ⟨fs, hfs⟩ := h
      simp only [dfInsert]
      by_cases hk : k0 = mp
      · rw [if_pos hk]
        rcases List.mem_cons.1 hfs with hm | hm
        · have hkk : k = k0 := by
            have := congrArg Prod.fst hm
            simpa using this
          subst hkk
          exact ⟨if fld ∈ fs0 then fs0 else fs0 ++ [fld], by
            rw [hk]
            exact List.mem_cons_self _ _⟩
        · exact ⟨fs, List.mem_cons_of_mem _ hm⟩
      · rw [if_neg hk]
        rcases List.mem_cons.1 hfs with hm | hm
        · exact ⟨fs, by rw [hm]; exact List.mem_cons_self _ _⟩
        · obtain ⟨fs2, hfs2⟩ := ih ⟨fs, hm⟩
          exact ⟨fs2, List.mem_cons_of_mem _ hfs2⟩

theorem dyn_fold_vals (ms : List MDict) (refs : List Str) :
    ∀ d, (∀ kv ∈ d, kv.2 ≠ []) →
      ∀ kv ∈ refs.foldl (fun d ref =>
          match fieldCandidate ms ref with
          | some p => dfInsert d p.1 p.2
          | none => d) d, kv.2 ≠ [] := by
  induction refs with
  | nil => intro d h kv hkv; exact h kv hkv
  | cons r rest ih =>
      intro d h kv hkv
      simp only [List.foldl_cons] at hkv
      cases hfc : fieldCandidate ms r with
      | none =>
          rw [hfc] at hkv
          exact ih d h kv hkv
      | some p =>
          rw [hfc] at hkv
          exact ih _ (dfInsert_vals d p.1 p.2 h) kv hkv

theorem dynamicFields_vals (ms : List MDict) (lineage : List LineageEntry) :
    ∀ kv ∈ dynamicFields ms lineage, kv.2 ≠ [] := by
  intro kv hkv
  exact dyn_fold_vals ms (lineageRefs lineage) [] (by simp) kv hkv

theorem dyn_fold_keys (ms : List MDict) (refs : List Str) :
    ∀ d kv, kv ∈ refs.foldl (fun d ref =>
        match fieldCandidate ms ref with
        | some p => dfInsert d p.1 p.2
        | none => d) d →
      (∃ fs, (kv.1, fs) ∈ d) ∨
        ∃ ref ∈ refs, ∃ fld, fieldCandidate ms ref = some (kv.1, fld) := by
  induction refs with
  | nil =>
      intro d kv hkv
      exact Or.inl ⟨kv.2, by simpa using hkv⟩
  | cons r rest ih =>
      intro d kv hkv
      simp only [List.foldl_cons] at hkv
      cases hfc : fieldCandidate ms r with
      | none =>
          rw [hfc] at hkv
          rcases ih d kv hkv with h | ⟨ref, h1, h2⟩
          · exact Or.inl h
          · exact Or.inr ⟨ref, List.mem_cons_of_mem r h1, h2⟩
      | some p =>
          rw [hfc] at hkv
          rcases ih _ kv hkv with ⟨fs, hfs⟩ | ⟨ref, h1, h2⟩
          · rcases dfInsert_keys d p.1 p.2 (kv.1, fs) hfs with h | ⟨fs2, hfs2⟩
            · simp only at h
              refine Or.inr ⟨r, List.mem_cons_self _ _, p.2, ?_⟩
              rw [hfc, h]
            · exact Or.inl ⟨fs2, hfs2⟩
          · exact Or.inr ⟨ref, List.mem_cons_of_mem r h1, h2⟩

theorem dyn_fold_key_pres (ms : List MDict) (refs : List Str) :
    ∀ d (k : Str), (∃ fs, (k, fs) ∈ d) →
      ∃ fs, (k, fs) ∈ refs.foldl (fun d ref =>
        match fieldCandidate ms ref with
        | some p => dfInsert d p.1 p.2
        | none => d) d := by
  induction refs with
  | nil => intro d k h; exact h
  | cons r rest ih =>
      intro d k h
      simp only [List.foldl_cons]
      cases hfc : fieldCandidate ms r with
      | none => exact ih d k h
      | some p => exact ih _ k (dfInsert_key_stable d p.1 p.2 k h)

theorem candidate_mem_dyn_fold (ms : List MDict) (refs : List Str) :
    ∀ d (ref : Str), ref ∈ refs → ∀ mp fld, fieldCandidate ms ref = some (mp, fld) →
      ∃ fs, (mp, fs) ∈ refs.foldl (fun d ref =>
        match fieldCandidate ms ref with
        | some p => dfInsert d p.1 p.2
        | none => d) d := by
  induction refs with
  | nil => intro d ref h; simp at h
  | cons r rest ih =>
      intro d ref h mp fld hfc
      simp only [List.foldl_cons]
      rcases List.mem_cons.1 h with h | h
      · subst h
        rw [hfc]
        exact dyn_fold_key_pres ms rest _ mp (dfInsert_mem_key d mp fld)
      · cases hfc2 : fieldCandidate ms r with
        | none => exact ih d ref h mp fld hfc
        | some p => exact ih _ ref h mp fld hfc

theorem candidate_mem_dynamicFields (ms : List MDict) (lineage : List LineageEntry)
    (ref : Str) (h : ref ∈ lineageRefs lineage) (mp fld : Str)
    (hfc : fieldCandidate ms ref = some (mp, fld)) :
    ∃ fs, (mp, fs) ∈ dynamicFields ms lineage :=
  candidate_mem_dyn_fold ms (lineageRefs lineage) [] ref h mp fld hfc

theorem dynamicFields_root_top (ms : List MDict) (lineage : List LineageEntry)
    (hH : [] ∉ topNames ms) :
    ∀ kv ∈ dynamicFields ms lineage, (pySplit '.' kv.1).headD [] ∈ topNames ms := by
  intro kv hkv
  rcases dyn_fold_keys ms (lineageRefs lineage) [] kv hkv with ⟨fs, hfs⟩ | ⟨ref, _, fld, hfc⟩
  · simp at hfs
  · obtain ⟨hdot, hroot, hcp⟩ := fieldCandidate_some_inv ms ref kv.1 fld hfc
    rw [fieldCandidate_head_root ms ref kv.1 fld hfc]
    exact allPaths_dotfree_top ms hH (candRoot ref) hroot (dot_not_mem_candRoot ref)

/-! ## The second inference run -/

theorem run2_candidate_none (ms : List MDict) (lineage : List LineageEntry)
    (hH : [] ∉ topNames ms) :
    ∀ ref ∈ lineageRefs lineage, fieldCandidate (inferCatalog lineage ms) ref = none := by
  intro ref href
  have hroots := dynamicFields_root_top ms lineage hH
  have hic : inferCatalog lineage ms = phase2 (dynamicFields ms lineage) ms := rfl
  have htop : topNames (inferCatalog lineage ms) = topNames ms :=
    phase2_topNames _ ms hroots
  by_cases hdot : '.' ∈ ref
  · by_cases hroot : candRoot ref ∈ allPaths ms
    · have hroot2 : candRoot ref ∈ allPaths (inferCatalog lineage ms) :=
        phase2_allPaths_mono _ ms _ hroot
      cases hcp : candPair ref with
      | none =>
          simp only [fieldCandidate, if_pos hdot, if_pos hroot2, hcp]
      | some p =>
          rcases p with ⟨mp, fld⟩
          by_cases hblocked : ∃ m, findPath ms (pySplit '.' mp) = some m ∧ m.props ≠ []
          · obtain ⟨m, hm, hp⟩ := hblocked
            obtain ⟨m', hm', hp'⟩ :=
              phase2_preserves (dynamicFields ms lineage) ms _ m hm hp
            rw [← hic] at hm'
            simp only [fieldCandidate, if_pos hdot, if_pos hroot2, hcp, hm']
            rw [if_neg (by rw [hp']; exact hp)]
          · have hfc1 : fieldCandidate ms ref = some (mp, fld) := by
              simp only [fieldCandidate, if_pos hdot, if_pos hroot, hcp]
              cases hfp : findPath ms (pySplit '.' mp) with
              | none => rfl
              | some m =>
                  by_cases hpr : m.props = []
                  · simp [hpr]
                  · exact absurd ⟨m, hfp, hpr⟩ hblocked
            obtain ⟨fs, hfs⟩ := candidate_mem_dynamicFields ms lineage ref href mp fld hfc1
            obtain ⟨m', hm', hp'⟩ := phase2_fills (dynamicFields ms lineage) ms
              (dynamicFields_vals ms lineage) (mp, fs) hfs
            rw [← hic] at hm'
            simp only at hm'
            simp only [fieldCandidate, if_pos hdot, if_pos hroot2, hcp, hm']
            rw [if_neg hp']
    · have hroot2 : candRoot ref ∉ allPaths (inferCatalog lineage ms) := by
        intro hcon
        have hH2 : [] ∉ topNames (inferCatalog lineage ms) := by
          rw [htop]
          exact hH
        have h2 := allPaths_dotfree_top _ hH2 _ hcon (dot_not_mem_candRoot ref)
        rw [htop] at h2
        exact hroot (topNames_subset_allPaths ms _ h2)
      simp only [fieldCandidate, if_pos hdot, if_neg hroot2]
  · simp only [fieldCandidate, if_neg hdot]

theorem run2_dyn_empty (ms : List MDict) (lineage : List LineageEntry)
    (hH : [] ∉ topNames ms) :
    dynamicFields (inferCatalog lineage ms) lineage = [] := by
  have hnone := run2_candidate_none ms lineage hH
  unfold dynamicFields
  have : ∀ (refs : List Str), (∀ ref ∈ refs,
      fieldCandidate (inferCatalog lineage ms) ref = none) →
      ∀ d : List (Str × List Str), refs.foldl (fun d ref =>
        match fieldCandidate (inferCatalog lineage ms) ref with
        | some p => dfInsert d p.1 p.2
        | none => d) d = d := by
    intro refs
    induction refs with
    | nil => intro _ d; rfl
    | cons r rest ih =>
        intro h d
        simp only [List.foldl_cons, h r (List.mem_cons_self _ _)]
        exact ih (fun ref href => h ref (List.mem_cons_of_mem r href)) d
  exact this (lineageRefs lineage) hnone []

/-! ## Claim C7: idempotence of the Dynamic Field Inferrer -/

/-- C7 counterexample: with a catalog whose only top-level model is named by
the empty string, inference is not idempotent — the first run creates a
nested model `B` whose path is the bare string `B` (the empty parent prefix
contributes no dot), which makes the previously skipped reference `B.g`
resolvable in the second run, which then creates a second, top-level `B`. -/
theorem c7_counterexample :
    inferCatalog exEmptyNameLineage (inferCatalog exEmptyNameLineage exEmptyNameCatalog)
      ≠ inferCatalog exEmptyNameLineage exEmptyNameCatalog := by
  have h1 : inferCatalog exEmptyNameLineage exEmptyNameCatalog =
      [⟨[], "program".toList, ["x".toList],
        [⟨"B".toList, "program".toList, ["f".toList], []⟩]⟩] := by
    simp [inferCatalog, create_dynamic_models_from_lineage, phase2, dynamicFields,
      lineageRefs, entryRefs, exEmptyNameLineage, exEmptyNameCatalog, fieldCandidate,
      candRoot, candPair, headSplitD, lastSplitD, pySplit, splitOnce, rsplitOnce,
      allPaths, allPathsAux, pyPathJoin, findPath, firstMatch, dfInsert, updatePath,
      replaceFirst, sortStrs, insSorted, strLe, programType, collapseDD, swapHash]
  have h2 : inferCatalog exEmptyNameLineage
      [⟨[], "program".toList, ["x".toList],
        [⟨"B".toList, "program".toList, ["f".toList], []⟩]⟩] =
      [⟨[], "program".toList, ["x".toList],
        [⟨"B".toList, "program".toList, ["f".toList], []⟩]⟩,
       ⟨"B".toList, "program".toList, ["g".toList], []⟩] := by
    simp [inferCatalog, create_dynamic_models_from_lineage, phase2, dynamicFields,
      lineageRefs, entryRefs, exEmptyNameLineage, fieldCandidate,
      candRoot, candPair, headSplitD, lastSplitD, pySplit, splitOnce, rsplitOnce,
      allPaths, allPathsAux, pyPathJoin, findPath, firstMatch, dfInsert, updatePath,
      replaceFirst, sortStrs, insSorted, strLe, programType, collapseDD, swapHash]
  rw [h1, h2]
  intro hcon
  have := congrArg List.length hcon
  simp at this

/-- C7 (amended): the Dynamic Field Inferrer is idempotent for every catalog
in which no top-level model has the empty string as its name: the second run
accumulates no pending fields (every path that the first run filled or
created carries non-empty properties, every reference skipped as a literal is
still skipped), so the catalog is unchanged. -/
theorem c7_amended_thm (lineage : List LineageEntry) (ms : List MDict)
    (hH : [] ∉ topNames ms) :
    inferCatalog lineage (inferCatalog lineage ms) = inferCatalog lineage ms := by
  have h := run2_dyn_empty ms lineage hH
  show (create_dynamic_models_from_lineage lineage (inferCatalog lineage ms)).1
      = inferCatalog lineage ms
  unfold create_dynamic_models_from_lineage
  rw [h]
  rfl

/-- C7 witness: the amended idempotence applied to the spec's Money scenario
(catalog `Money` with no declared properties, lineage filling `amount` and
`currency` per instance). -/
theorem c7_witness :
    inferCatalog exMoneyLineage (inferCatalog exMoneyLineage exMoneyCatalog)
      = inferCatalog exMoneyLineage exMoneyCatalog :=
  c7_amended_thm exMoneyLineage exMoneyCatalog (by decide)

/-! ## Claim C6: explicit schemas are never overwritten -/

/-- C6: for every model of the catalog (addressed by its part path) whose
declared properties are non-empty, running the Dynamic Field Inferrer leaves
that model present at the same path with properties set-equal (in fact
element-for-element identical) to the original, for every lineage input. -/
theorem c6_inference_nondestructive (lineage : List LineageEntry) (ms : List MDict)
    (parts : List Str) (m : MDict)
    (h1 : findPath ms parts = some m) (h2 : m.props ≠ []) :
    ∃ m', findPath (inferCatalog lineage ms) parts = some m' ∧
      (∀ x, x ∈ m'.props ↔ x ∈ m.props) := by
  obtain ⟨m', hm', hp'⟩ := phase2_preserves (dynamicFields ms lineage) ms parts m h1 h2
  exact ⟨m', hm', fun x => by rw [hp']⟩

/-- C6 witness: the declared model `ModelWithProps` keeps its two properties
through an inference run that references a new field on it. -/
theorem c6_witness :
    ∃ m', findPath (inferCatalog exDeclaredLineage exDeclaredCatalog)
        ["ModelWithProps".toList] = some m' ∧
      (∀ x, x ∈ m'.props ↔
        x ∈ (⟨"ModelWithProps".toList, "program".toList,
          ["existing1".toList, "existing2".toList], []⟩ : MDict).props) :=
  c6_inference_nondestructive exDeclaredLineage exDeclaredCatalog
    ["ModelWithProps".toList]
    ⟨"ModelWithProps".toList, "program".toList,
      ["existing1".toList, "existing2".toList], []⟩
    (by rfl) (by decide)

/-! ## Claim C5: order independence of the Usage Extractor -/

theorem exists_mem_congr {α : Type} {L₁ L₂ : List α}
    (hR : ∀ r, r ∈ L₁ ↔ r ∈ L₂) (P : α → Prop) :
    (∃ x ∈ L₁, P x) ↔ ∃ x ∈ L₂, P x :=
  ⟨fun ⟨x, hx, h⟩ => ⟨x, (hR x).mp hx, h⟩,
   fun ⟨x, hx, h⟩ => ⟨x, (hR x).mpr hx, h⟩⟩

theorem exists_mem_cons {α : Type} (P : α → Prop) (r : α) (L : List α) :
    (∃ x ∈ r :: L, P x) ↔ P r ∨ ∃ x ∈ L, P x := by
  constructor
  · rintro ⟨x, hx, h⟩
    rcases List.mem_cons.mp hx with rfl | hx'
    · exact Or.inl h
    · exact Or.inr ⟨x, hx', h⟩
  · rintro (h | ⟨x, hx, h⟩)
    · exact ⟨r, List.mem_cons_self r L, h⟩
    · exact ⟨x, List.mem_cons_of_mem r hx, h⟩

theorem hasKey_cons (known : List Str) (r : Str) (L : List Str) (k : Str) :
    hasKey known (r :: L) k ↔
      (refPasses known r ∧ trackingKey r = k) ∨ hasKey known L k :=
  exists_mem_cons _ r L

theorem hasStar_cons (known : List Str) (r : Str) (L : List Str) (k : Str) :
    hasStar known (r :: L) k ↔
      (refPasses known r ∧ trackingKey r = k ∧
        ((parse_reference r).2.2 = none ∨
         (parse_reference r).2.2 = some starStr)) ∨ hasStar known L k :=
  exists_mem_cons _ r L

theorem hasFld_cons (known : List Str) (r : Str) (L : List Str) (k x : Str) :
    hasFld known (r :: L) k x ↔
      (refPasses known r ∧ trackingKey r = k ∧
        (parse_reference r).2.2 = some x) ∨ hasFld known L k x :=
  exists_mem_cons _ r L

theorem hasModel_cons (r : Str) (L : List Str) (q : Str) :
    hasModel (r :: L) q ↔
      ((parse_reference r).1 = q ∧ q ≠ []) ∨ hasModel L q :=
  exists_mem_cons _ r L

theorem hasInst_cons (r : Str) (L : List Str) (q x : Str) :
    hasInst (r :: L) q x ↔
      ((parse_reference r).1 = q ∧ q ≠ [] ∧
        (parse_reference r).2.1 = some x) ∨ hasInst L q x :=
  exists_mem_cons _ r L

theorem erfStep_not_passes (known : List Str) (uf : UFMap) (ref : Str)
    (h : ¬ refPasses known ref) : erfStep known uf ref = uf := by
  simp only [erfStep]
  rw [if_neg (by simpa [refPasses] using h)]

theorem erfStep_apply_other (known : List Str) (uf : UFMap) (ref q : Str)
    (h : q ≠ trackingKey ref) : erfStep known uf ref q = uf q := by
  simp only [erfStep]
  split
  · cases hf : (parse_reference ref).2.2 <;> simp [h]
  · rfl

theorem erfStep_apply_key_none (known : List Str) (uf : UFMap) (ref : Str)
    (hp : refPasses known ref) (hf : (parse_reference ref).2.2 = none) :
    erfStep known uf ref (trackingKey ref) =
      some (insert starStr ((uf (trackingKey ref)).getD ∅)) := by
  simp only [erfStep]
  rw [if_pos (by simpa [refPasses] using hp)]
  rw [hf]
  simp

theorem erfStep_apply_key_some (known : List Str) (uf : UFMap) (ref x : Str)
    (hp : refPasses known ref) (hf : (parse_reference ref).2.2 = some x) :
    erfStep known uf ref (trackingKey ref) =
      some (if starStr ∈ (uf (trackingKey ref)).getD ∅
            then (uf (trackingKey ref)).getD ∅
            else insert x ((uf (trackingKey ref)).getD ∅)) := by
  simp only [erfStep]
  rw [if_pos (by simpa [refPasses] using hp)]
  rw [hf]
  simp

theorem erf_fold_mono (known : List Str) (L : List Str) (uf : UFMap) (k x : Str)
    (h : ∃ s₀, uf k = some s₀ ∧ x ∈ s₀) :
    ∃ s₁, (L.foldl (erfStep known) uf) k = some s₁ ∧ x ∈ s₁ := by
  induction L generalizing uf with
  | nil => exact h
  | cons r L ih =>
      rw [List.foldl_cons]
      apply ih
      by_cases hp : refPasses known r
      · by_cases hk : k = trackingKey r
        · subst hk
          obtain ⟨s₀, hs₀, hx⟩ := h
          cases hf : (parse_reference r).2.2 with
          | none =>
              rw [erfStep_apply_key_none known uf r hp hf]
              exact ⟨_, rfl, by simp [hs₀, hx]⟩
          | some y =>
              rw [erfStep_apply_key_some known uf r y hp hf]
              refine ⟨_, rfl, ?_⟩
              simp only [hs₀, Option.getD_some]
              by_cases hst : starStr ∈ s₀ <;> simp [hst, hx]
        · rw [erfStep_apply_other known uf r k hk]
          exact h
      · rw [erfStep_not_passes known uf r hp]
        exact h

theorem erf_fold_none (known : List Str) (L : List Str) (uf : UFMap) (k : Str) :
    (L.foldl (erfStep known) uf) k = none ↔
      uf k = none ∧ ¬ hasKey known L k := by
  induction L generalizing uf with
  | nil => simp [hasKey]
  | cons r L ih =>
      rw [List.foldl_cons, ih, hasKey_cons]
      by_cases hp : refPasses known r
      · by_cases hk : trackingKey r = k
        · subst hk
          constructor
          · rintro ⟨hnone, -⟩
            exfalso
            cases hf : (parse_reference r).2.2 with
            | none =>
                rw [erfStep_apply_key_none known uf r hp hf] at hnone
                exact Option.noConfusion hnone
            | some y =>
                rw [erfStep_apply_key_some known uf r y hp hf] at hnone
                exact Option.noConfusion hnone
          · rintro ⟨-, hnk⟩
            exact absurd (Or.inl ⟨hp, rfl⟩) hnk
        · rw [erfStep_apply_other known uf r k (fun h => hk h.symm)]
          simp [hk]
      · rw [erfStep_not_passes known uf r hp]
        simp [hp]

theorem erf_fold_star (known : List Str) (L : List Str) (uf : UFMap) (k : Str)
    (s : Finset Str) (h : (L.foldl (erfStep known) uf) k = some s) :
    (starStr ∈ s ↔
      (∃ s₀, uf k = some s₀ ∧ starStr ∈ s₀) ∨ hasStar known L k) := by
  induction L generalizing uf with
  | nil =>
      simp only [List.foldl_nil] at h
      simp [hasStar, h]
  | cons r L ih =>
      rw [List.foldl_cons] at h
      rw [ih _ h, hasStar_cons]
      by_cases hp : refPasses known r
      · by_cases hk : trackingKey r = k
        · subst hk
          cases hf : (parse_reference r).2.2 with
          | none =>
              rw [erfStep_apply_key_none known uf r hp hf]
              simp [hp, hf]
          | some y =>
              rw [erfStep_apply_key_some known uf r y hp hf]
              cases hu : uf (trackingKey r) with
              | none =>
                  by_cases hy : y = starStr
                  · subst hy
                    simp [hp, hf, hu]
                  · simp [hp, hf, hu, hy, Ne.symm hy]
              | some s₀ =>
                  by_cases hst : starStr ∈ s₀
                  · simp [hp, hf, hu, hst]
                  · by_cases hy : y = starStr
                    · subst hy
                      simp [hp, hf, hu, hst]
                    · simp [hp, hf, hu, hst, hy, Ne.symm hy]
        · rw [erfStep_apply_other known uf r k (fun h2 => hk h2.symm)]
          simp [hk]
      · rw [erfStep_not_passes known uf r hp]
        simp [hp]

theorem erf_fold_mem (known : List Str) (L : List Str) (uf : UFMap) (k x : Str)
    (s : Finset Str) (h : (L.foldl (erfStep known) uf) k = some s)
    (hns : starStr ∉ s) :
    (x ∈ s ↔ (∃ s₀, uf k = some s₀ ∧ x ∈ s₀) ∨ hasFld known L k x) := by
  induction L generalizing uf with
  | nil =>
      simp only [List.foldl_nil] at h
      simp [hasFld, h]
  | cons r L ih =>
      rw [List.foldl_cons] at h
      rw [ih _ h, hasFld_cons]
      by_cases hp : refPasses known r
      · by_cases hk : trackingKey r = k
        · subst hk
          cases hf : (parse_reference r).2.2 with
          | none =>
              exfalso
              obtain ⟨s₁, hs₁, hstar⟩ :=
                erf_fold_mono known L (erfStep known uf r) (trackingKey r) starStr
                  ⟨_, erfStep_apply_key_none known uf r hp hf,
                    Finset.mem_insert_self _ _⟩
              rw [h] at hs₁
              injection hs₁ with e
              exact hns (e ▸ hstar)
          | some y =>
              by_cases hst : starStr ∈ (uf (trackingKey r)).getD ∅
              · exfalso
                obtain ⟨s₁, hs₁, hstar⟩ :=
                  erf_fold_mono known L (erfStep known uf r) (trackingKey r) starStr
                    ⟨_, erfStep_apply_key_some known uf r y hp hf, by simp [hst]⟩
                rw [h] at hs₁
                injection hs₁ with e
                exact hns (e ▸ hstar)
              · rw [erfStep_apply_key_some known uf r y hp hf]
                cases hu : uf (trackingKey r) with
                | none =>
                    by_cases hy : x = y
                    · subst hy
                      simp [hp, hf, hu]
                    · simp [hp, hf, hu, hy, Ne.symm hy]
                | some s₀ =>
                    simp only [hu, Option.getD_some] at hst
                    by_cases hy : x = y
                    · subst hy
                      simp [hp, hf, hu, hst]
                    · simp [hp, hf, hu, hst, hy, Ne.symm hy]
        · rw [erfStep_apply_other known uf r k (fun h2 => hk h2.symm)]
          simp [hk]
      · rw [erfStep_not_passes known uf r hp]
        simp [hp]

theorem ufKeyStep_fold_star_keep (lst : List Str) :
    lst.foldl ufKeyStep (some {starStr}) = some {starStr} := by
  induction lst with
  | nil => rfl
  | cons f rest ih =>
      rw [List.foldl_cons]
      have hstep : ufKeyStep (some {starStr}) f = some {starStr} := by
        by_cases hf : f = starStr <;> simp [ufKeyStep, hf]
      rw [hstep, ih]

theorem ufKeyStep_fold_star (lst : List Str) (acc : Option (Finset Str))
    (h : starStr ∈ lst) : lst.foldl ufKeyStep acc = some {starStr} := by
  induction lst generalizing acc with
  | nil => cases h
  | cons f rest ih =>
      rw [List.foldl_cons]
      by_cases hf : f = starStr
      · subst hf
        rw [show ufKeyStep acc starStr = some {starStr} from by simp [ufKeyStep]]
        exact ufKeyStep_fold_star_keep rest
      · have hr : starStr ∈ rest := by
          rcases List.mem_cons.mp h with h1 | h2
          · exact absurd h1.symm hf
          · exact h2
        exact ih _ hr

theorem miStep_not_model (mi : Str → Option (Finset Str)) (ref : Str)
    (h : (parse_reference ref).1 = []) : miStep mi ref = mi := by
  simp only [miStep]
  cases hi : (parse_reference ref).2.1 <;> simp [h]

theorem miStep_apply_other (mi : Str → Option (Finset Str)) (ref q : Str)
    (h : q ≠ (parse_reference ref).1) : miStep mi ref q = mi q := by
  simp only [miStep]
  cases hi : (parse_reference ref).2.1 <;>
    by_cases hm : (parse_reference ref).1 = [] <;> simp [hm, h]

theorem miStep_apply_key_some (mi : Str → Option (Finset Str)) (ref x : Str)
    (hm : (parse_reference ref).1 ≠ []) (hi : (parse_reference ref).2.1 = some x) :
    miStep mi ref ((parse_reference ref).1) =
      some (insert x ((mi ((parse_reference ref).1)).getD ∅)) := by
  simp only [miStep]
  rw [hi]
  simp [hm]

theorem miStep_apply_key_none (mi : Str → Option (Finset Str)) (ref : Str)
    (hm : (parse_reference ref).1 ≠ []) (hi : (parse_reference ref).2.1 = none) :
    miStep mi ref ((parse_reference ref).1) =
      some ((mi ((parse_reference ref).1)).getD ∅) := by
  simp only [miStep]
  rw [hi]
  simp [hm]

theorem mi_fold_none (L : List Str) (mi : Str → Option (Finset Str)) (q : Str) :
    (L.foldl miStep mi) q = none ↔ mi q = none ∧ ¬ hasModel L q := by
  induction L generalizing mi with
  | nil => simp [hasModel]
  | cons r L ih =>
      rw [List.foldl_cons, ih, hasModel_cons]
      by_cases hm : (parse_reference r).1 = []
      · rw [miStep_not_model mi r hm]
        by_cases hq : q = []
        · subst hq
          simp [hm]
        · simp [hm, Ne.symm hq]
      · by_cases hq : q = (parse_reference r).1
        · subst hq
          constructor
          · rintro ⟨hnone, -⟩
            exfalso
            cases hi : (parse_reference r).2.1 with
            | none =>
                rw [miStep_apply_key_none mi r hm hi] at hnone
                exact Option.noConfusion hnone
            | some y =>
                rw [miStep_apply_key_some mi r y hm hi] at hnone
                exact Option.noConfusion hnone
          · rintro ⟨-, hnk⟩
            exact absurd (Or.inl ⟨rfl, hm⟩) hnk
        · rw [miStep_apply_other mi r q hq]
          simp [Ne.symm hq]

theorem mi_fold_mem (L : List Str) (mi : Str → Option (Finset Str)) (q x : Str) :
    (∃ s, (L.foldl miStep mi) q = some s ∧ x ∈ s) ↔
      (∃ s, mi q = some s ∧ x ∈ s) ∨ hasInst L q x := by
  induction L generalizing mi with
  | nil => simp [hasInst]
  | cons r L ih =>
      rw [List.foldl_cons, ih, hasInst_cons]
      by_cases hm : (parse_reference r).1 = []
      · rw [miStep_not_model mi r hm]
        by_cases hq : q = []
        · subst hq
          simp [hm]
        · simp [hm, Ne.symm hq]
      · by_cases hq : q = (parse_reference r).1
        · subst hq
          cases hi : (parse_reference r).2.1 with
          | none =>
              rw [miStep_apply_key_none mi r hm hi]
              cases hu : mi (parse_reference r).1 with
              | none => simp [hm, hu]
              | some s₀ => simp [hm, hu]
          | some y =>
              rw [miStep_apply_key_some mi r y hm hi]
              cases hu : mi (parse_reference r).1 with
              | none =>
                  by_cases hy : x = y
                  · subst hy
                    simp [hm, hu]
                  · simp [hm, hu, hy, Ne.symm hy]
              | some s₀ =>
                  by_cases hy : x = y
                  · subst hy
                    simp [hm, hu]
                  · simp [hm, hu, hy, Ne.symm hy]
        · rw [miStep_apply_other mi r q hq]
          simp [Ne.symm hq]

theorem rm_fold_mem (L : List Str) (s : Finset Str) (x : Str) :
    (x ∈ L.foldl (fun s ref =>
        if (parse_reference ref).1 ≠ [] then insert (parse_reference ref).1 s
        else s) s) ↔
      x ∈ s ∨ ∃ r ∈ L, (parse_reference r).1 ≠ [] ∧ (parse_reference r).1 = x := by
  induction L generalizing s with
  | nil => simp
  | cons r L ih =>
      rw [List.foldl_cons, ih, exists_mem_cons]
      by_cases hr : (parse_reference r).1 = []
      · simp [hr]
      · rw [if_pos hr]
        constructor
        · rintro (h1 | h2)
          · rcases Finset.mem_insert.mp h1 with rfl | hx
            · exact Or.inr (Or.inl ⟨hr, rfl⟩)
            · exact Or.inl hx
          · exact Or.inr (Or.inr h2)
        · rintro (hx | (⟨-, hmx⟩ | h2))
          · exact Or.inl (Finset.mem_insert_of_mem hx)
          · exact Or.inl (hmx ▸ Finset.mem_insert_self _ _)
          · exact Or.inr h2

theorem ucReferencedModels_congr (l₁ l₂ : List LineageEntry)
    (hR : ∀ r, r ∈ lineageRefs l₁ ↔ r ∈ lineageRefs l₂) :
    ucReferencedModels l₁ = ucReferencedModels l₂ := by
  apply Finset.ext
  intro x
  unfold ucReferencedModels
  rw [rm_fold_mem, rm_fold_mem]
  simp only [Finset.not_mem_empty, false_or]
  exact exists_mem_congr hR _

theorem ucModelInstances_congr (l₁ l₂ : List LineageEntry)
    (hR : ∀ r, r ∈ lineageRefs l₁ ↔ r ∈ lineageRefs l₂) :
    ucModelInstances l₁ = ucModelInstances l₂ := by
  have hmod : ∀ q, hasModel (lineageRefs l₁) q ↔ hasModel (lineageRefs l₂) q := by
    intro q
    unfold hasModel
    exact exists_mem_congr hR _
  have hinst : ∀ q x, hasInst (lineageRefs l₁) q x ↔ hasInst (lineageRefs l₂) q x := by
    intro q x
    unfold hasInst
    exact exists_mem_congr hR _
  funext q
  unfold ucModelInstances
  cases h1 : (lineageRefs l₁).foldl miStep (fun _ => none) q with
  | none =>
      rw [mi_fold_none] at h1
      have h2 : (lineageRefs l₂).foldl miStep (fun _ => none) q = none := by
        rw [mi_fold_none]
        exact ⟨rfl, fun hh => h1.2 ((hmod q).mpr hh)⟩
      rw [h2]
  | some s1 =>
      cases h2 : (lineageRefs l₂).foldl miStep (fun _ => none) q with
      | none =>
          exfalso
          rw [mi_fold_none] at h2
          have h1' : (lineageRefs l₁).foldl miStep (fun _ => none) q = none := by
            rw [mi_fold_none]
            exact ⟨rfl, fun hh => h2.2 ((hmod q).mp hh)⟩
          rw [h1'] at h1
          exact Option.noConfusion h1
      | some s2 =>
          congr 1
          apply Finset.ext
          intro x
          have e1 := mi_fold_mem (lineageRefs l₁) (fun _ => none) q x
          have e2 := mi_fold_mem (lineageRefs l₂) (fun _ => none) q x
          rw [h1] at e1
          rw [h2] at e2
          simp only [Option.some.injEq] at e1 e2
          simp at e1 e2
          exact e1.trans ((hinst q x).trans e2.symm)

theorem uc_used_fields_congr (ms : List MDict) (l₁ l₂ : List LineageEntry)
    (hR : ∀ r, r ∈ lineageRefs l₁ ↔ r ∈ lineageRefs l₂) :
    uc_used_fields l₁ ms = uc_used_fields l₂ ms := by
  have hkey : ∀ k, hasKey (allPaths ms) (lineageRefs l₁) k ↔
      hasKey (allPaths ms) (lineageRefs l₂) k := by
    intro k
    unfold hasKey
    exact exists_mem_congr hR _
  have hstar : ∀ k, hasStar (allPaths ms) (lineageRefs l₁) k ↔
      hasStar (allPaths ms) (lineageRefs l₂) k := by
    intro k
    unfold hasStar
    exact exists_mem_congr hR _
  have hfld : ∀ k x, hasFld (allPaths ms) (lineageRefs l₁) k x ↔
      hasFld (allPaths ms) (lineageRefs l₂) k x := by
    intro k x
    unfold hasFld
    exact exists_mem_congr hR _
  funext k
  unfold uc_used_fields extract_referenced_fields
  cases h1 : (lineageRefs l₁).foldl (erfStep (allPaths ms)) (fun _ => none) k with
  | none =>
      rw [erf_fold_none] at h1
      have h2 : (lineageRefs l₂).foldl (erfStep (allPaths ms)) (fun _ => none) k
          = none := by
        rw [erf_fold_none]
        exact ⟨rfl, fun hh => h1.2 ((hkey k).mpr hh)⟩
      rw [h2]
  | some s1 =>
      cases h2 : (lineageRefs l₂).foldl (erfStep (allPaths ms)) (fun _ => none) k with
      | none =>
          exfalso
          rw [erf_fold_none] at h2
          have h1' : (lineageRefs l₁).foldl (erfStep (allPaths ms)) (fun _ => none) k
              = none := by
            rw [erf_fold_none]
            exact ⟨rfl, fun hh => h2.2 ((hkey k).mp hh)⟩
          rw [h1'] at h1
          exact Option.noConfusion h1
      | some s2 =>
          have e1 := erf_fold_star (allPaths ms) (lineageRefs l₁) (fun _ => none) k s1 h1
          have e2 := erf_fold_star (allPaths ms) (lineageRefs l₂) (fun _ => none) k s2 h2
          simp at e1 e2
          show (s1.sort (· ≤ ·)).foldl ufKeyStep none
              = (s2.sort (· ≤ ·)).foldl ufKeyStep none
          by_cases hst : starStr ∈ s1
          · have hst2 : starStr ∈ s2 := e2.mpr ((hstar k).mp (e1.mp hst))
            rw [ufKeyStep_fold_star _ _ ((Finset.mem_sort _).mpr hst),
                ufKeyStep_fold_star _ _ ((Finset.mem_sort _).mpr hst2)]
          · have hst2 : starStr ∉ s2 := fun hh => hst (e1.mpr ((hstar k).mpr (e2.mp hh)))
            have hSeq : s1 = s2 := by
              apply Finset.ext
              intro x
              have m1 := erf_fold_mem (allPaths ms) (lineageRefs l₁) (fun _ => none)
                k x s1 h1 hst
              have m2 := erf_fold_mem (allPaths ms) (lineageRefs l₂) (fun _ => none)
                k x s2 h2 hst2
              simp at m1 m2
              exact m1.trans ((hfld k x).trans m2.symm)
            rw [hSeq]

theorem usage_extract_mem_congr (ms : List MDict) (l₁ l₂ : List LineageEntry)
    (hR : ∀ r, r ∈ lineageRefs l₁ ↔ r ∈ lineageRefs l₂) :
    ucReferencedModels l₁ = ucReferencedModels l₂ ∧
    ucModelInstances l₁ = ucModelInstances l₂ ∧
    uc_used_fields l₁ ms = uc_used_fields l₂ ms :=
  ⟨ucReferencedModels_congr l₁ l₂ hR, ucModelInstances_congr l₁ l₂ hR,
   uc_used_fields_congr ms l₁ l₂ hR⟩

theorem entryRefs_perm (e₁ e₂ : LineageEntry) (h : EntryEquiv e₁ e₂) :
    (entryRefs e₁).Perm (entryRefs e₂) := by
  unfold entryRefs
  exact h.1.append (by rw [h.2])

theorem lineageRefs_forall₂ (mid l₂ : List LineageEntry)
    (hf : List.Forall₂ EntryEquiv mid l₂) :
    (lineageRefs mid).Perm (lineageRefs l₂) := by
  induction hf with
  | nil => exact List.Perm.refl _
  | cons h _ ih =>
      simp only [lineageRefs, List.flatMap_cons]
      exact (entryRefs_perm _ _ h).append ih

theorem lineageRefs_perm (l₁ mid l₂ : List LineageEntry)
    (hp : l₁.Perm mid) (hf : List.Forall₂ EntryEquiv mid l₂) :
    (lineageRefs l₁).Perm (lineageRefs l₂) :=
  (hp.flatMap_right entryRefs).trans (lineageRefs_forall₂ mid l₂ hf)

/-- C5: the Usage Extractor's extract is order-independent: if `l₂` is
obtained from `l₁` by permuting the lineage entries and permuting the source
references within entries, extract returns the same ReferencedModels set,
the same ModelInstances mapping and the same UsedFields mapping; moreover
appending a duplicate of an already-present entry (re-processing its
references a second time) leaves all three results unchanged. -/
theorem c5_extract_order_independent (ms : List MDict)
    (l₁ l₂ : List LineageEntry)
    (h : ∃ mid, l₁.Perm mid ∧ List.Forall₂ EntryEquiv mid l₂) :
    (ucReferencedModels l₁ = ucReferencedModels l₂ ∧
     ucModelInstances l₁ = ucModelInstances l₂ ∧
     uc_used_fields l₁ ms = uc_used_fields l₂ ms) ∧
    (∀ l : List LineageEntry, ∀ e ∈ l,
       ucReferencedModels (l ++ [e]) = ucReferencedModels l ∧
       ucModelInstances (l ++ [e]) = ucModelInstances l ∧
       uc_used_fields (l ++ [e]) ms = uc_used_fields l ms) := by
  obtain ⟨mid, hp, hf⟩ := h
  constructor
  · exact usage_extract_mem_congr ms l₁ l₂
      (fun r => (lineageRefs_perm l₁ mid l₂ hp hf).mem_iff)
  · intro l e he
    apply usage_extract_mem_congr
    intro r
    unfold lineageRefs
    rw [List.flatMap_append]
    constructor
    · intro hr
      rcases List.mem_append.mp hr with h1 | h1
      · exact h1
      · have h2 : r ∈ entryRefs e := by simpa using h1
        exact List.mem_flatMap.mpr ⟨e, he, h2⟩
    · intro hr
      exact List.mem_append.mpr (Or.inl hr)

/-- C5 witness: a concrete permuted pair of two-entry lineages satisfies the
hypothesis, and the three extraction results coincide on it. -/
theorem c5_witness :
    (∃ mid, exC5L1.Perm mid ∧ List.Forall₂ EntryEquiv mid exC5L2) ∧
    (ucReferencedModels exC5L1 = ucReferencedModels exC5L2 ∧
     ucModelInstances exC5L1 = ucModelInstances exC5L2 ∧
     uc_used_fields exC5L1 [] = uc_used_fields exC5L2 []) := by
  have h : ∃ mid, exC5L1.Perm mid ∧ List.Forall₂ EntryEquiv mid exC5L2 := by
    refine ⟨exC5Mid, List.Perm.swap _ _ [], ?_⟩
    exact List.Forall₂.cons ⟨List.Perm.refl _, rfl⟩
      (List.Forall₂.cons ⟨List.Perm.swap _ _ [], rfl⟩ List.Forall₂.nil)
  exact ⟨h, (c5_extract_order_independent [] exC5L1 exC5L2 h).1⟩

/-! ## Claim C8: instance expansion in the Model Graph Builder -/

theorem strLe_total (x y : Str) : strLe x y = true ∨ strLe y x = true := by
  induction x generalizing y with
  | nil => left; rfl
  | cons a as ih =>
      cases y with
      | nil => right; rfl
      | cons b bs =>
          by_cases hab : a < b
          · left
            simp [strLe, hab]
          · by_cases hba : b < a
            · right
              simp [strLe, hba]
            · rcases ih bs with h | h
              · left
                simp [strLe, hab, hba, h]
              · right
                simp [strLe, hba, hab, h]

theorem insSorted_length (x : Str) (l : List Str) :
    (insSorted x l).length = l.length + 1 := by
  induction l with
  | nil => rfl
  | cons y ys ih =>
      by_cases h : strLe x y = true <;> simp [insSorted, h, ih]

theorem insSorted_head (x : Str) (l : List Str) :
    (insSorted x l).head? = some x ∨ (insSorted x l).head? = l.head? := by
  cases l with
  | nil => left; rfl
  | cons y ys =>
      by_cases h : strLe x y = true
      · left
        simp [insSorted, h]
      · right
        simp [insSorted, h]

theorem chain'_insSorted (x : Str) (l : List Str)
    (hc : List.Chain' (fun a b => strLe a b = true) l) :
    List.Chain' (fun a b => strLe a b = true) (insSorted x l) := by
  induction l with
  | nil => simp [insSorted]
  | cons y ys ih =>
      by_cases h : strLe x y = true
      · rw [show insSorted x (y :: ys) = x :: y :: ys from by simp [insSorted, h]]
        exact List.chain'_cons.mpr ⟨h, hc⟩
      · rw [show insSorted x (y :: ys) = y :: insSorted x ys from by
          simp [insSorted, h]]
        rw [List.chain'_cons'] at hc ⊢
        refine ⟨?_, ih hc.2⟩
        intro b hb
        rcases insSorted_head x ys with h1 | h1
        · rw [h1] at hb
          have hbx : b = x := by
            have := hb
            simp at this
            exact this.symm
          subst hbx
          rcases strLe_total b y with h2 | h2
          · exact absurd h2 h
          · exact h2
        · rw [h1] at hb
          exact hc.1 b hb

theorem sortStrs_length (l : List Str) : (sortStrs l).length = l.length := by
  induction l with
  | nil => rfl
  | cons y ys ih =>
      show (insSorted y (sortStrs ys)).length = ys.length + 1
      rw [insSorted_length, ih]

theorem sortStrs_chain' (l : List Str) :
    List.Chain' (fun a b => strLe a b = true) (sortStrs l) := by
  induction l with
  | nil => simp [sortStrs]
  | cons y ys ih =>
      show List.Chain' _ (insSorted y (sortStrs ys))
      exact chain'_insSorted y _ ih

theorem sortedInstances_length (insts : List Str) :
    (sortedInstances insts).length = if insts = [] then 1 else insts.length := by
  unfold sortedInstances
  by_cases h : insts = [] <;> simp [h, sortStrs_length]

theorem sortedInstances_chain' (insts : List Str) :
    List.Chain' optLe (sortedInstances insts) := by
  unfold sortedInstances
  by_cases h : insts = []
  · simp [h]
  · rw [if_neg h, List.chain'_map]
    exact sortStrs_chain' insts

theorem exP6Out_eval :
    exP6Out =
      ⟨[("Money#jpy".toList, "program".toList),
        ("Money#usd".toList, "program".toList)],
       [("Money#jpy".toList,
         [("Money_jpy_amount".toList, "amount".toList),
          ("Money_jpy_currency".toList, "currency".toList)]),
        ("Money#usd".toList,
         [("Money_usd_amount".toList, "amount".toList),
          ("Money_usd_currency".toList, "currency".toList)])],
       [("Money#jpy.amount".toList, "Money_jpy_amount".toList),
        ("Money#jpy.currency".toList, "Money_jpy_currency".toList),
        ("Money#usd.amount".toList, "Money_usd_amount".toList),
        ("Money#usd.currency".toList, "Money_usd_currency".toList)],
       [("Money#jpy".toList, (none, [], some "jpy".toList)),
        ("Money#usd".toList, (none, [], some "usd".toList))]⟩ := by
  simp [exP6Out, parse_models_recursive, exMoneyFullCatalog, exMoneyInstances,
    emptyBuilderOut, sortedInstances, sortStrs, insSorted, strLe,
    processInstance, processProps, instPath, instSuffix, fieldRefOf, dictInsert,
    slug, replaceColons, sqRun, sqSkip, isSymChar, stripChar, dotToUnd,
    pyPathJoin, starStr]

/-- C8: instance expansion is multiplicative and deterministically ordered:
the expansion list of a model has one synthetic no-instance entry when no
instances were recorded and otherwise exactly one entry per recorded
instance, ordered with the no-instance marker first and instance ids in
code-point order; and on the P6 example (model `Money`, instances `jpy` and
`usd`, two declared fields) the builder emits exactly two graph nodes, two
field nodes per instance node, and four distinct field-node identifiers. -/
theorem c8_instance_expansion :
    (∀ insts : List Str,
       (sortedInstances insts).length = (if insts = [] then 1 else insts.length) ∧
       List.Chain' optLe (sortedInstances insts)) ∧
    exP6Out.model_hierarchy.map Prod.fst =
      ["Money#jpy".toList, "Money#usd".toList] ∧
    exP6Out.field_nodes_by_model.map (fun kv => (kv.1, kv.2.length)) =
      [("Money#jpy".toList, 2), ("Money#usd".toList, 2)] ∧
    exP6Out.field_node_ids.length = 4 ∧
    (exP6Out.field_node_ids.map Prod.snd).Nodup := by
  refine ⟨fun insts => ⟨sortedInstances_length insts, sortedInstances_chain' insts⟩,
    ?_, ?_, ?_, ?_⟩ <;> rw [exP6Out_eval] <;> decide
